import Mathlib

/-!
# Verification of the RegInfo monitor's change-detection and snapshot-retention engine

Shallow embedding of `src/rin_monitor_cli.py` (class `RINMonitor`).  Pure string
processing (the normalizer, the fingerprinter, the differ) is translated into
executable Lean functions on `List Char` / `String`; the filesystem snapshot
store is modelled as an explicit list of records with modification times; the
orchestrator `monitor_rin` becomes a function from its external inputs (catalog
response, fetched document, clock) and the store to an outcome, a new store and
a trace of effects.  Library calls (`re.sub`, `hashlib.md5`, `difflib`,
`str.splitlines`) are modelled by faithful Lean translations of their behaviour
on the patterns/arguments the source uses.
-/

namespace RinMonitor

/-! ## Basic character and string utilities -/

/-- Python `\s` on the ASCII range: the whitespace characters the `re` module
matches in the source's `\s+` attribute patterns. -/
def pyWS (c : Char) : Bool :=
  c = ' ' || c = '\t' || c = '\n' || c = '\r' || c = Char.ofNat 11 || c = Char.ofNat 12

/-- The single-quote character `'`. -/
def squote : Char := Char.ofNat 39

/-- A quote character as in the regex class matching either quote style. -/
def isQuote (c : Char) : Bool := c = '"' || c = squote

/-- ASCII lower-casing, modelling Python `str.lower()` on the ASCII inputs
the source compares (the `"not found"` marker test). -/
def lowerC (c : Char) : Char := c.toLower

/-- Character comparison, optionally case-insensitive (`re.IGNORECASE`). -/
def lcEq (ci : Bool) (a b : Char) : Bool :=
  if ci then lowerC a = lowerC b else a = b

/-- `isPreL pat s` : `pat` is an initial segment of `s`. -/
def isPreL : List Char → List Char → Bool
  | [], _ => true
  | _ :: _, [] => false
  | p :: ps, c :: cs => p = c && isPreL ps cs

/-- `containsL sub s` : `sub` occurs contiguously inside `s`
(Python's `sub in s`). -/
def containsL (sub : List Char) : List Char → Bool
  | [] => isPreL sub []
  | c :: cs => isPreL sub (c :: cs) || containsL sub cs

/-- Python's `sub in s` on strings. -/
def strContains (s sub : String) : Bool := containsL sub.data s.data

/-- Python `str.lower()` (ASCII range). -/
def strLower (s : String) : String := ⟨s.data.map lowerC⟩

/-- Lexicographic `a <= b` on character lists by code point — Python's
string comparison, which `sorted` and `pathlib` path ordering use. -/
def lexLe : List Char → List Char → Bool
  | [], _ => true
  | _ :: _, [] => false
  | a :: as, b :: bs =>
    if a.toNat = b.toNat then lexLe as bs else decide (a.toNat < b.toNat)

/-- Python `a <= b` on strings. -/
def strLe (a b : String) : Bool := lexLe a.data b.data

theorem lexLe_refl : ∀ l : List Char, lexLe l l = true := by
  intro l
  induction l with
  | nil => rfl
  | cons x xs ih => simp [lexLe, ih]

theorem lexLe_total : ∀ a b : List Char, lexLe a b = true ∨ lexLe b a = true := by
  intro a
  induction a with
  | nil => intro b; exact Or.inl rfl
  | cons x xs ih =>
    intro b
    cases b with
    | nil => exact Or.inr rfl
    | cons y ys =>
      by_cases h : x.toNat = y.toNat
      · have h' : y.toNat = x.toNat := h.symm
        simp only [lexLe, if_pos h, if_pos h']
        exact ih ys
      · have h' : ¬y.toNat = x.toNat := fun hh => h hh.symm
        simp only [lexLe, if_neg h, if_neg h', decide_eq_true_eq]
        omega

theorem lexLe_trans : ∀ a b c : List Char, lexLe a b = true →
    lexLe b c = true → lexLe a c = true := by
  intro a
  induction a with
  | nil => intro b c _ _; rfl
  | cons x xs ih =>
    intro b c hab hbc
    cases b with
    | nil => simp [lexLe] at hab
    | cons y ys =>
      cases c with
      | nil => simp [lexLe] at hbc
      | cons z zs =>
        simp only [lexLe] at hab hbc ⊢
        by_cases h1 : x.toNat = y.toNat
        · by_cases h2 : y.toNat = z.toNat
          · rw [if_pos h1] at hab
            rw [if_pos h2] at hbc
            rw [if_pos (h1.trans h2)]
            exact ih ys zs hab hbc
          · rw [if_pos h1] at hab
            rw [if_neg h2, decide_eq_true_eq] at hbc
            rw [if_neg (by omega), decide_eq_true_eq]
            omega
        · by_cases h2 : y.toNat = z.toNat
          · rw [if_neg h1, decide_eq_true_eq] at hab
            rw [if_pos h2] at hbc
            rw [if_neg (by omega), decide_eq_true_eq]
            omega
          · rw [if_neg h1, decide_eq_true_eq] at hab
            rw [if_neg h2, decide_eq_true_eq] at hbc
            rw [if_neg (by omega), decide_eq_true_eq]
            omega

/-! ## The Normalizer: `normalize_xml_for_comparison` (src lines 138-150)

The source applies seven global `re.sub(pattern, '', content)` passes.  Each
attribute pattern is `\s+NAME=["'][^"']*["']` (some with `re.IGNORECASE`), and
the comment pattern is `<!--.*?-->` with `re.DOTALL`.  For these particular
patterns a match attempt at a position is deterministic: `\s+` must take the
whole whitespace run (the name starts with a non-whitespace character, so
backtracking into the run cannot succeed), `[^"']*` stops at the first quote,
and `.*?-->` ends at the first `-->` after the opening `<!--`.  `re.sub`
replaces the leftmost match, then continues scanning the original text after
the match; we mirror that with a fuel-indexed scanner (fuel = remaining length,
each step consumes at least one character). -/

/-- Match the literal pattern name (optionally case-insensitively) at the
head of `s`, returning the remainder. -/
def matchName (ci : Bool) : List Char → List Char → Option (List Char)
  | [], s => some s
  | _ :: _, [] => none
  | p :: ps, c :: cs => if lcEq ci p c then matchName ci ps cs else none

/-- Try to match `\s+NAME=["'][^"']*["']` starting exactly at `s`; on success
return the suffix of `s` after the match. -/
def attrMatchAt (name : List Char) (ci : Bool) (s : List Char) : Option (List Char) :=
  let ws := s.takeWhile pyWS
  if ws.isEmpty then none
  else
    match matchName ci name (s.dropWhile pyWS) with
    | none => none
    | some r1 =>
      match r1 with
      | '=' :: r2 =>
        match r2 with
        | q :: r3 =>
          if isQuote q then
            match r3.dropWhile (fun c => !isQuote c) with
            | q2 :: r4 => if isQuote q2 then some r4 else none
            | [] => none
          else none
        | [] => none
      | _ => none

/-- One global `re.sub` pass for an attribute pattern: scan left to right,
delete each leftmost match, continue after it.  `fuel` bounds the recursion;
`subAttr` supplies `fuel = s.length`, which suffices because every step
consumes at least one character. -/
def subAttrGo (name : List Char) (ci : Bool) : Nat → List Char → List Char
  | 0, s => s
  | _ + 1, [] => []
  | fuel + 1, c :: cs =>
    match attrMatchAt name ci (c :: cs) with
    | some rest => subAttrGo name ci fuel rest
    | none => c :: subAttrGo name ci fuel cs

/-- `re.sub(r'\s+NAME=["\'][^"\']*["\']', '', s)` for the given name. -/
def subAttr (name : String) (ci : Bool) (s : List Char) : List Char :=
  subAttrGo name.data ci s.length s

/-- Scan for the first `-->` and return the suffix after it
(the non-greedy `.*?-->` with `re.DOTALL`). -/
def findAfterClose : List Char → Option (List Char)
  | '-' :: '-' :: '>' :: r => some r
  | _ :: r => findAfterClose r
  | [] => none

/-- Try to match `<!--.*?-->` starting exactly at `s`. -/
def commentMatchAt : List Char → Option (List Char)
  | '<' :: '!' :: '-' :: '-' :: rest => findAfterClose rest
  | _ => none

/-- One global `re.sub(r'<!--.*?-->', '', s, flags=re.DOTALL)` pass. -/
def subCommentsGo : Nat → List Char → List Char
  | 0, s => s
  | _ + 1, [] => []
  | fuel + 1, c :: cs =>
    match commentMatchAt (c :: cs) with
    | some rest => subCommentsGo fuel rest
    | none => c :: subCommentsGo fuel cs

/-- `re.sub(r'<!--.*?-->', '', s, flags=re.DOTALL)`. -/
def subComments (s : List Char) : List Char := subCommentsGo s.length s

/-- `normalize_xml_for_comparison` (src lines 138-150): the seven `re.sub`
passes in source order. -/
def normalizeCore (s : List Char) : List Char :=
  let s1 := subAttr "RUN_DATE" false s
  let s2 := subAttr "run_date" true s1
  let s3 := subAttr "RUNDATE" false s2
  let s4 := subAttr "rundate" true s3
  let s5 := subAttr "timestamp" true s4
  let s6 := subAttr "generated" true s5
  subComments s6

/-- `normalize_xml_for_comparison` on `String`. -/
def normalize_xml_for_comparison (content : String) : String :=
  ⟨normalizeCore content.data⟩

/-! ## The Fingerprinter: `get_content_hash` (src lines 152-154)

`hashlib.md5(normalized.encode('utf-8')).hexdigest()`: MD5 over the UTF-8
bytes of the normalized text, rendered as 32 lowercase hex characters.  The
MD5 round structure, shift table and sine-derived constant table are the
standard ones the library implements. -/

/-- UTF-8 encoding of one character (bytes as `Nat < 256`). -/
def utf8Bytes (c : Char) : List Nat :=
  let n := c.toNat
  if n < 0x80 then [n]
  else if n < 0x800 then
    [0xC0 + n / 0x40, 0x80 + n % 0x40]
  else if n < 0x10000 then
    [0xE0 + n / 0x1000, 0x80 + (n / 0x40) % 0x40, 0x80 + n % 0x40]
  else
    [0xF0 + n / 0x40000, 0x80 + (n / 0x1000) % 0x40, 0x80 + (n / 0x40) % 0x40,
      0x80 + n % 0x40]

/-- `str.encode('utf-8')` as a byte list. -/
def strBytes (s : String) : List Nat := (s.data.map utf8Bytes).flatten

/-- MD5 per-round left-rotation amounts. -/
def md5S : List Nat :=
  [7, 12, 17, 22, 7, 12, 17, 22, 7, 12, 17, 22, 7, 12, 17, 22,
   5, 9, 14, 20, 5, 9, 14, 20, 5, 9, 14, 20, 5, 9, 14, 20,
   4, 11, 16, 23, 4, 11, 16, 23, 4, 11, 16, 23, 4, 11, 16, 23,
   6, 10, 15, 21, 6, 10, 15, 21, 6, 10, 15, 21, 6, 10, 15, 21]

/-- MD5 sine-derived constants `K[i] = floor(abs(sin(i+1)) * 2^32)`. -/
def md5K : List Nat :=
  [3614090360, 3905402710, 606105819, 3250441966, 4118548399, 1200080426,
   2821735955, 4249261313, 1770035416, 2336552879, 4294925233, 2304563134,
   1804603682, 4254626195, 2792965006, 1236535329, 4129170786, 3225465664,
   643717713, 3921069994, 3593408605, 38016083, 3634488961, 3889429448,
   568446438, 3275163606, 4107603335, 1163531501, 2850285829, 4243563512,
   1735328473, 2368359562, 4294588738, 2272392833, 1839030562, 4259657740,
   2763975236, 1272893353, 4139469664, 3200236656, 681279174, 3936430074,
   3572445317, 76029189, 3654602809, 3873151461, 530742520, 3299628645,
   4096336452, 1126891415, 2878612391, 4237533241, 1700485571, 2399980690,
   4293915773, 2240044497, 1873313359, 4264355552, 2734768916, 1309151649,
   4149444226, 3174756917, 718787259, 3951481745]

/-- 32-bit word arithmetic. -/
def w32 (n : Nat) : Nat := n % 4294967296

/-- 32-bit left rotation. -/
def rotl32 (x s : Nat) : Nat :=
  w32 (x * 2 ^ s + x / 2 ^ (32 - s))

/-- 32-bit bitwise complement. -/
def not32 (x : Nat) : Nat := Nat.xor x 4294967295

/-- MD5 padding: append `0x80`, zero bytes to 56 mod 64, then the message
bit length as 8 little-endian bytes. -/
def md5Pad (msg : List Nat) : List Nat :=
  let len := msg.length
  let padLen := (55 + 64 - len % 64) % 64 + 1
  let bitLen := (len * 8) % 18446744073709551616
  msg ++ (0x80 :: List.replicate (padLen - 1) 0) ++
    (List.range 8).map (fun i => bitLen / 256 ^ i % 256)

/-- Read 16 little-endian 32-bit words from a 64-byte block. -/
def leWords (block : List Nat) : List Nat :=
  (List.range 16).map (fun i =>
    block.getD (4 * i) 0 + 256 * block.getD (4 * i + 1) 0 +
      65536 * block.getD (4 * i + 2) 0 + 16777216 * block.getD (4 * i + 3) 0)

/-- One MD5 step function `(F, g)` for round index `i`. -/
def md5FG (i b c d : Nat) : Nat × Nat :=
  if i < 16 then
    (Nat.lor (Nat.land b c) (Nat.land (not32 b) d), i)
  else if i < 32 then
    (Nat.lor (Nat.land d b) (Nat.land (not32 d) c), (5 * i + 1) % 16)
  else if i < 48 then
    (Nat.xor b (Nat.xor c d), (3 * i + 5) % 16)
  else
    (Nat.xor c (Nat.lor b (not32 d)), (7 * i) % 16)

/-- Process one 64-byte block, updating the four-word state. -/
def md5Block (st : Nat × Nat × Nat × Nat) (block : List Nat) : Nat × Nat × Nat × Nat :=
  let M := leWords block
  let ⟨a0, b0, c0, d0⟩ := st
  let final := (List.range 64).foldl
    (fun (s : Nat × Nat × Nat × Nat) i =>
      let ⟨a, b, c, d⟩ := s
      let ⟨f, g⟩ := md5FG i b c d
      let f' := w32 (f + a + md5K.getD i 0 + M.getD g 0)
      (d, w32 (b + rotl32 f' (md5S.getD i 0)), b, c))
    (a0, b0, c0, d0)
  let ⟨a, b, c, d⟩ := final
  (w32 (a0 + a), w32 (b0 + b), w32 (c0 + c), w32 (d0 + d))

/-- Fold the padded message block by block (`fuel` counts blocks; the padded
length is a positive multiple of 64, so `fuel = length / 64` suffices). -/
def md5Blocks : Nat → (Nat × Nat × Nat × Nat) → List Nat → Nat × Nat × Nat × Nat
  | 0, st, _ => st
  | _ + 1, st, [] => st
  | fuel + 1, st, bytes => md5Blocks fuel (md5Block st (bytes.take 64)) (bytes.drop 64)

/-- Lowercase hex digit. -/
def hexDigit (n : Nat) : Char :=
  "0123456789abcdef".data.getD n '0'

/-- Two lowercase hex characters of a byte. -/
def hexByte (b : Nat) : List Char := [hexDigit (b / 16), hexDigit (b % 16)]

/-- Little-endian bytes of a 32-bit word. -/
def leBytes32 (x : Nat) : List Nat :=
  [x % 256, x / 256 % 256, x / 65536 % 256, x / 16777216 % 256]

/-- `hashlib.md5(bytes).hexdigest()`. -/
def md5Hex (msg : List Nat) : String :=
  let padded := md5Pad msg
  let ⟨a, b, c, d⟩ := md5Blocks (padded.length / 64)
    (0x67452301, 0xefcdab89, 0x98badcfe, 0x10325476) padded
  ⟨((leBytes32 a ++ leBytes32 b ++ leBytes32 c ++ leBytes32 d).map hexByte).flatten⟩

/-- `get_content_hash` (src lines 152-154): MD5 hex digest of the normalized
content's UTF-8 encoding. -/
def get_content_hash (content : String) : String :=
  md5Hex (strBytes (normalize_xml_for_comparison content))

/-! ## The Differ: `compare_xml` (src lines 244-259)

The source normalizes both inputs, splits each with
`str.splitlines(keepends=True)`, runs
`difflib.unified_diff(old_lines, new_lines, fromfile='Previous',
tofile='Current', lineterm='')` and joins the emitted lines with `''`.

`str.splitlines` is translated exactly (all line-break characters, with
`\r\n` kept together).  Of `difflib`, the opcode grouping
(`SequenceMatcher.get_grouped_opcodes`, context `n = 3`) and the unified
formatting (`difflib.unified_diff`, `_format_range_unified`) are translated
from the library; the underlying matching-block search
(`SequenceMatcher.get_opcodes`) is modelled by the common-prefix /
common-suffix decomposition of the two line sequences.  The model agrees with
the library on the facts used below: the opcode list consists of a single
`equal` opcode exactly when the sequences are equal (so the diff is empty iff
the normalized texts coincide), and any non-empty output begins with the two
fixed `--- Previous` / `+++ Current` header lines. -/

/-- A character that terminates a line for `str.splitlines`
(besides `\r`, which is handled specially for `\r\n`). -/
def isLineBreak (c : Char) : Bool :=
  c = '\n' || c = Char.ofNat 11 || c = Char.ofNat 12 || c = Char.ofNat 28 ||
  c = Char.ofNat 29 || c = Char.ofNat 30 || c = Char.ofNat 133 ||
  c = Char.ofNat 8232 || c = Char.ofNat 8233

/-- `str.splitlines(keepends=True)` core: split into lines, keeping the
terminators; a trailing segment without terminator is kept as a final line. -/
def splitCore (acc : List Char) : List Char → List (List Char)
  | [] => if acc.isEmpty then [] else [acc.reverse]
  | '\r' :: '\n' :: rest => (acc.reverse ++ ['\r', '\n']) :: splitCore [] rest
  | c :: rest =>
    if c = '\r' || isLineBreak c then (acc.reverse ++ [c]) :: splitCore [] rest
    else splitCore (c :: acc) rest

/-- `s.splitlines(keepends=True)`. -/
def splitlinesKE (s : String) : List String :=
  (splitCore [] s.data).map fun l => ⟨l⟩

/-- Opcode tags as in `difflib`. -/
inductive Tag
  | equal
  | replace
  | delete
  | insert
deriving DecidableEq, Repr

/-- A `difflib` opcode `(tag, i1, i2, j1, j2)`. -/
structure Opcode where
  tag : Tag
  i1 : Nat
  i2 : Nat
  j1 : Nat
  j2 : Nat
deriving DecidableEq, Repr

/-- Length of the longest common initial run of two line sequences. -/
def commonPreLen : List (List Char) → List (List Char) → Nat
  | a :: as, b :: bs => if a = b then commonPreLen as bs + 1 else 0
  | _, _ => 0

/-- Opcodes of the matcher model: common initial run (`equal`), a middle
`replace`/`delete`/`insert` section, common final run (`equal`). -/
def myOpcodes (a b : List (List Char)) : List Opcode :=
  let p := commonPreLen a b
  let a1 := a.drop p
  let b1 := b.drop p
  let s := commonPreLen a1.reverse b1.reverse
  let am := a1.length - s
  let bm := b1.length - s
  (if 0 < p then [⟨.equal, 0, p, 0, p⟩] else []) ++
  (if 0 < am && 0 < bm then [⟨.replace, p, p + am, p, p + bm⟩]
   else if 0 < am then [⟨.delete, p, p + am, p, p⟩]
   else if 0 < bm then [⟨.insert, p, p, p, p + bm⟩]
   else []) ++
  (if 0 < s then [⟨.equal, p + am, p + am + s, p + bm, p + bm + s⟩] else [])

/-- `get_grouped_opcodes`: widen/trim the first opcode when it is `equal`
(context `n = 3`). -/
def trimFirst : List Opcode → List Opcode
  | ⟨.equal, i1, i2, j1, j2⟩ :: rest =>
    ⟨.equal, max i1 (i2 - 3), i2, max j1 (j2 - 3), j2⟩ :: rest
  | l => l

/-- `get_grouped_opcodes`: trim the last opcode when it is `equal`. -/
def trimLast : List Opcode → List Opcode
  | [] => []
  | [⟨.equal, i1, i2, j1, j2⟩] => [⟨.equal, i1, min i2 (i1 + 3), j1, min j2 (j1 + 3)⟩]
  | c :: rest => c :: trimLast rest

/-- Is the group a single `equal` opcode (such groups are not yielded)? -/
def singleEqual : List Opcode → Bool
  | [⟨.equal, _, _, _, _⟩] => true
  | _ => false

/-- The grouping loop of `get_grouped_opcodes`: split at `equal` opcodes
spanning more than `2 * n = 6` lines, and drop a final single-`equal` group. -/
def gatherGroups : List Opcode → List Opcode → List (List Opcode)
  | [], group => if group.isEmpty || singleEqual group then [] else [group]
  | c :: rest, group =>
    if c.tag = .equal && 6 < c.i2 - c.i1 then
      (group ++ [⟨.equal, c.i1, min c.i2 (c.i1 + 3), c.j1, min c.j2 (c.j1 + 3)⟩]) ::
        gatherGroups rest [⟨.equal, max c.i1 (c.i2 - 3), c.i2, max c.j1 (c.j2 - 3), c.j2⟩]
    else gatherGroups rest (group ++ [c])

/-- `SequenceMatcher.get_grouped_opcodes(n=3)` over the modelled opcodes. -/
def groupedOpcodes (codes0 : List Opcode) : List (List Opcode) :=
  let codes1 := if codes0.isEmpty then [⟨.equal, 0, 1, 0, 1⟩] else codes0
  gatherGroups (trimLast (trimFirst codes1)) []

/-- `difflib._format_range_unified`. -/
def formatRangeUnified (start stop : Nat) : String :=
  let beginning := start + 1
  let length := stop - start
  if length = 1 then toString beginning
  else toString (if length = 0 then beginning - 1 else beginning) ++ "," ++
    toString length

/-- Python slice `l[i1:i2]`. -/
def slice (l : List (List Char)) (i1 i2 : Nat) : List (List Char) :=
  (l.drop i1).take (i2 - i1)

/-- The lines a single opcode contributes to a hunk. -/
def opcodeLines (a b : List (List Char)) (c : Opcode) : List (List Char) :=
  match c.tag with
  | .equal => (slice a c.i1 c.i2).map (' ' :: ·)
  | .replace =>
    (slice a c.i1 c.i2).map ('-' :: ·) ++ (slice b c.j1 c.j2).map ('+' :: ·)
  | .delete => (slice a c.i1 c.i2).map ('-' :: ·)
  | .insert => (slice b c.j1 c.j2).map ('+' :: ·)

/-- One hunk of `unified_diff` (`lineterm` is the empty string): the `@@`
header line, then the prefixed content lines of each opcode. -/
def hunkLines (a b : List (List Char)) (group : List Opcode) : List (List Char) :=
  match group with
  | [] => []
  | first :: rest =>
    let last := rest.getLastD first
    let header :=
      "@@ -" ++ formatRangeUnified first.i1 last.i2 ++ " +" ++
        formatRangeUnified first.j1 last.j2 ++ " @@"
    header.data :: (group.map (opcodeLines a b)).flatten

/-- `difflib.unified_diff(a, b, fromfile='Previous', tofile='Current',
lineterm='')`: the emitted lines; the two header lines appear before the
first group only. -/
def unifiedDiffLines (a b : List (List Char)) : List (List Char) :=
  match groupedOpcodes (myOpcodes a b) with
  | [] => []
  | gs => "--- Previous".data :: "+++ Current".data ::
      (gs.map (hunkLines a b)).flatten

/-- `compare_xml` (src lines 244-259): normalize both sides, split into lines
keeping the terminators, and join the unified-diff lines with `''`. -/
def compare_xml (old_content new_content : String) : String :=
  let old_normalized := normalizeCore old_content.data
  let new_normalized := normalizeCore new_content.data
  let old_lines := splitCore [] old_normalized
  let new_lines := splitCore [] new_normalized
  ⟨(unifiedDiffLines old_lines new_lines).flatten⟩

/-! ## The Snapshot Store (src lines 164-235)

One tracked identifier's directory `data_dir/rin` is modelled as a list of
snapshot records.  A record keeps the filename the source builds
(`rin_{rin}_{pubid}_{timestamp}.xml`), the publication id and content it was
written with, and the filesystem modification time (a natural number supplied
by the caller, standing for the clock at the moment of the write).  Writing to
an existing filename overwrites content and modification time, as
`open(filename, 'w')` does.  Effects on the world outside the store (file
writes, deletions, the e-mail notification call) are recorded in an event
trace. -/

/-- A persisted snapshot record (one `rin_{rin}_{pubid}_{timestamp}.xml`
file in the identifier's directory). -/
structure SnapRec where
  filename : String
  pubid : String
  content : String
  mtime : Nat
deriving DecidableEq, Repr

/-- The identifier's directory contents. -/
abbrev Store := List SnapRec

/-- Observable effects of a pass. -/
inductive Event
  | wrote (filename : String)
  | deleted (filename : String)
  | notified (rin : String) (oldPubid : Option String) (newPubid : String)
      (diffText : String) (oldFile : String) (newFile : String)
deriving DecidableEq, Repr

/-- The filename `save_rin_xml` builds (src line 169). -/
def mkFilename (rin pubid ts : String) : String :=
  "rin_" ++ rin ++ "_" ++ pubid ++ "_" ++ ts ++ ".xml"

/-- `open(filename, 'w').write(content)`: overwrite an existing file of the
same name, else create it. -/
def writeFile (st : Store) (r : SnapRec) : Store :=
  if st.any (fun x => x.filename = r.filename) then
    st.map (fun x => if x.filename = r.filename then r else x)
  else st ++ [r]

/-- Sorting key order for `sorted(files, key=lambda f: f.stat().st_mtime,
reverse=True)`: newer first; Python's sort is stable, as is
`List.insertionSort` with this relation. -/
def mtimeGe (a b : SnapRec) : Prop := b.mtime ≤ a.mtime

instance : DecidableRel mtimeGe := fun a b => Nat.decLe b.mtime a.mtime

instance : IsTotal SnapRec mtimeGe := ⟨fun a b => Nat.le_total b.mtime a.mtime⟩

instance : IsTrans SnapRec mtimeGe :=
  ⟨fun _ _ _ h1 h2 => Nat.le_trans h2 h1⟩

/-- Key order for `sorted(files, reverse=True)` in `get_latest_file_for_rin`:
paths (here: filenames) in descending lexicographic order. -/
def nameGe (a b : SnapRec) : Prop := strLe b.filename a.filename = true

instance : DecidableRel nameGe := fun a b =>
  inferInstanceAs (Decidable (strLe b.filename a.filename = true))

instance : IsTotal SnapRec nameGe :=
  ⟨fun a b => lexLe_total b.filename.data a.filename.data⟩

instance : IsTrans SnapRec nameGe :=
  ⟨fun _ _ _ h1 h2 => lexLe_trans _ _ _ h2 h1⟩

/-- `cleanup_old_files` (src lines 194-210): order the directory's files by
modification time, newest first, keep the first `keep_count`, delete the rest
(deletion of each file always succeeds in the model; the source ignores
per-file deletion errors). -/
def cleanup_old_files (keep_count : Nat) (st : Store) : Store × List Event :=
  let files := st.insertionSort mtimeGe
  let files_to_delete := files.drop keep_count
  (files.take keep_count, files_to_delete.map (fun f => .deleted f.filename))

/-- Result of `save_rin_xml`. -/
structure SaveResult where
  store : Store
  filename : String
  events : List Event
deriving Repr

/-- `save_rin_xml` (src lines 164-185): write the fetched content under the
timestamped filename, then run the retention sweep with the configured keep
count.  `ts` is `datetime.now().strftime('%Y%m%d_%H%M%S')` and `now` the
file's resulting modification time. -/
def save_rin_xml (keep_count : Nat) (rin pubid content : String) (ts : String)
    (now : Nat) (st : Store) : SaveResult :=
  let filename := mkFilename rin pubid ts
  let st1 := writeFile st ⟨filename, pubid, content, now⟩
  let (st2, evs) := cleanup_old_files keep_count st1
  ⟨st2, filename, .wrote filename :: evs⟩

/-- The regex `rin_[^_]+_(\d{6})_` of `get_latest_file_for_rin`: at the
current position, match `rin_`, a nonempty underscore-free run, `_`, six
digits (captured), `_`. -/
def pubidMatchAt : List Char → Option String
  | 'r' :: 'i' :: 'n' :: '_' :: rest =>
    let run := rest.takeWhile (fun c => c ≠ '_')
    if run.isEmpty then none
    else
      match rest.dropWhile (fun c => c ≠ '_') with
      | '_' :: d1 :: d2 :: d3 :: d4 :: d5 :: d6 :: '_' :: _ =>
        if (d1.isDigit && d2.isDigit && d3.isDigit &&
            d4.isDigit && d5.isDigit && d6.isDigit : Bool) then
          some ⟨[d1, d2, d3, d4, d5, d6]⟩
        else none
      | _ => none
  | _ => none

/-- `re.search(r'rin_[^_]+_(\d{6})_', name)`: leftmost match of the capture. -/
def searchPubid : List Char → Option String
  | [] => none
  | c :: cs =>
    match pubidMatchAt (c :: cs) with
    | some p => some p
    | none => searchPubid cs

/-- `get_latest_file_for_rin` (src lines 217-235): order the directory's
files by filename, descending, take the first, and parse its publication id
out of the name; `(none, none)` when no file exists. -/
def get_latest_file_for_rin (st : Store) : Option String × Option SnapRec :=
  match st.insertionSort nameGe with
  | [] => (none, none)
  | latest_file :: _ => (searchPubid latest_file.filename.data, some latest_file)

/-! ## The Catalog Resolver: `get_available_agendas` (src lines 74-107)

The network fetch and the BeautifulSoup scrape are collaborators: the
embedding receives either `none` (any exception inside the `try` block —
unreachable host, malformed page, and also any failure of the fallback path
itself is absorbed by the model's total fallback) or `some hrefs`, the list of
`href` attributes of the page's `pageSubNav` links.  From each href the
source extracts `REGINFO_RIN_DATA_(\d{6})\.xml`, keeps ids ending in `04` or
`10` whose leading four digits form a year between 2020 and 2030, de-duplicates
them (a Python `set`) and returns them sorted in descending order; when the
candidate set is empty, or on any exception, it falls back to the default
generator. -/

/-- Parse a digit run as a number. -/
def natOfDigits (ds : List Char) : Nat :=
  ds.foldl (fun acc c => acc * 10 + (c.toNat - 48)) 0

/-- At the current position, match `REGINFO_RIN_DATA_(\d{6})\.xml`. -/
def agendaMatchAt (s : List Char) : Option String :=
  if isPreL "REGINFO_RIN_DATA_".data s then
    match s.drop 17 with
    | d1 :: d2 :: d3 :: d4 :: d5 :: d6 :: '.' :: 'x' :: 'm' :: 'l' :: _ =>
      if (d1.isDigit && d2.isDigit && d3.isDigit &&
          d4.isDigit && d5.isDigit && d6.isDigit : Bool) then
        some ⟨[d1, d2, d3, d4, d5, d6]⟩
      else none
    | _ => none
  else none

/-- `re.search(r'REGINFO_RIN_DATA_(\d{6})\.xml', href)`. -/
def searchAgendaPubid : List Char → Option String
  | [] => none
  | c :: cs =>
    match agendaMatchAt (c :: cs) with
    | some p => some p
    | none => searchAgendaPubid cs

/-- The filter on an extracted pubid (src lines 94-96): six characters
(guaranteed by the regex), ending in `04` or `10`, year between 2020
and 2030. -/
def validPubid (p : String) : Bool :=
  p.length = 6 &&
  (isPreL "04".data (p.data.drop 4) || isPreL "10".data (p.data.drop 4)) &&
  (2020 ≤ natOfDigits (p.data.take 4) && natOfDigits (p.data.take 4) ≤ 2030)

/-- The candidate set scraped from the page: extracted, filtered,
de-duplicated pubids. -/
def candidatePubids (hrefs : List String) : List String :=
  ((hrefs.filterMap (fun h => searchAgendaPubid h.data)).filter validPubid).dedup

/-- Descending-order key for `sorted(list(pubids), reverse=True)`. -/
def strGe (a b : String) : Prop := strLe b a = true

instance : DecidableRel strGe := fun a b =>
  inferInstanceAs (Decidable (strLe b a = true))

instance : IsTotal String strGe := ⟨fun a b => lexLe_total b.data a.data⟩

instance : IsTrans String strGe := ⟨fun _ _ _ h1 h2 => lexLe_trans _ _ _ h2 h1⟩

/-- Modelled from the spec: `generate_default_pubids` is called at
src/rin_monitor_cli.py lines 103 and 107 but its definition is absent from
src/.  Spec section 6 describes it: the resolver "must tolerate and recover
from unreachable/malformed responses by falling back to a deterministic
generator of plausible recent batch ids (e.g., synthesize candidates for the
current and nearby periods)".  We model it as the October and April batch ids
of the current and the previous year, newest first, given the current year. -/
def generate_default_pubids (year : Nat) : List String :=
  [toString year ++ "10", toString year ++ "04",
   toString (year - 1) ++ "10", toString (year - 1) ++ "04"]

/-- `get_available_agendas` (src lines 74-107).  `response` is `none` when
the fetch/parse raises, `some hrefs` otherwise; `year` feeds the fallback
generator. -/
def get_available_agendas (response : Option (List String)) (year : Nat) :
    List String :=
  match response with
  | none => generate_default_pubids year
  | some hrefs =>
    let pubids := candidatePubids hrefs
    if !pubids.isEmpty then pubids.insertionSort strGe
    else generate_default_pubids year

/-! ## Configuration (src lines 42-66)

`load_config` reads the JSON config file when it exists; otherwise it reports
the absence and produces the generated default configuration. -/

/-- The `email` block of the configuration. -/
structure EmailConfig where
  smtp_server : String
  smtp_port : Nat
  username : String
  password : String
  from_address : String
  to_address : String
deriving DecidableEq, Repr

/-- The configuration record. -/
structure Config where
  rins : List String
  data_directory : String
  keep_files : Nat
  email : EmailConfig
deriving DecidableEq, Repr

/-- `create_default_config` (src lines 52-66).  The `default_config` value is
exactly the dictionary built at src lines 54-66.  Modelled from the spec: the
function's tail (persisting the generated file and returning the value) is
absent from src/; spec section 6 says "absence of a config source yields a
generated default configuration (empty tracked-identifier set) rather than
failing startup", so the built dictionary is returned. -/
def create_default_config : Config :=
  { rins := []
    data_directory := "reginfo_data"
    keep_files := 2
    email :=
      { smtp_server := "smtp.gmail.com"
        smtp_port := 587
        username := ""
        password := ""
        from_address := ""
        to_address := "" } }

/-- `load_config` (src lines 42-50): `fileExists` models
`os.path.exists(self.config_file)` and `fileContents` the parsed JSON of an
existing file. -/
def load_config (fileExists : Bool) (fileContents : Config) : Config :=
  if fileExists then fileContents else create_default_config

/-! ## The Change Detector: `monitor_rin` (src lines 355-425)

One pass for one tracked identifier.  External collaborators appear as
inputs: the catalog response, the fetched document (`none` models a
`requests` exception; the source also treats an empty response text as a
fetch failure, via `if not current_xml`), the wall clock (`ts` the
second-granularity timestamp string, `now` the resulting file modification
time) and the retention count from the configuration.  The e-mail
notification (src line 415) is recorded as an event; its internal SMTP
outcome does not influence the pass. -/

/-- How a pass over one identifier ends, one constructor per `return` of
`monitor_rin`. -/
inductive Outcome
  | noAgendas
  | fetchFailed
  | notFound
  | changeDetected
  | noChange
  | baseline
deriving DecidableEq, Repr

/-- The pass's result: outcome, Python return value, new directory contents,
effect trace. -/
structure MonitorResult where
  outcome : Outcome
  returned : Bool
  store : Store
  events : List Event
deriving DecidableEq, Repr

/-- `monitor_rin` (src lines 355-425). -/
def monitor_rin (keep_count : Nat) (rin : String)
    (catalogResponse : Option (List String)) (year : Nat)
    (fetched : Option String) (ts : String) (now : Nat) (st : Store) :
    MonitorResult :=
  match get_available_agendas catalogResponse year with
  | [] => ⟨.noAgendas, false, st, []⟩
  | latest_pubid :: _ =>
    match fetched with
    | none => ⟨.fetchFailed, false, st, []⟩
    | some current_xml =>
      if current_xml.data.isEmpty then ⟨.fetchFailed, false, st, []⟩
      else if strContains (strLower current_xml) "not found" ||
          current_xml.length < 100 then
        ⟨.notFound, false, st, []⟩
      else
        match get_latest_file_for_rin st with
        | (previous_pubid, some previous_file) =>
          let previous_xml := previous_file.content
          let current_hash := get_content_hash current_xml
          let previous_hash := get_content_hash previous_xml
          if current_hash ≠ previous_hash then
            let r := save_rin_xml keep_count rin latest_pubid current_xml ts now st
            let diff := compare_xml previous_xml current_xml
            ⟨.changeDetected, true, r.store,
              r.events ++ [.notified rin previous_pubid latest_pubid diff
                previous_file.filename r.filename]⟩
          else
            let r := save_rin_xml keep_count rin latest_pubid current_xml ts now st
            ⟨.noChange, false, r.store, r.events⟩
        | (_, none) =>
          let r := save_rin_xml keep_count rin latest_pubid current_xml ts now st
          ⟨.baseline, false, r.store, r.events⟩

/-! ## Write-and-sweep sequences (for the retention claims)

`runWrites` performs a sequence of write-and-sweep cycles on one identifier's
directory, as successive `save_rin_xml` calls do; the `i`-th write (1-based)
receives modification time `i`, modelling a strictly increasing filesystem
clock across cycles. -/

/-- One requested write: the publication id, the second-granularity timestamp
string, and the content. -/
structure WriteReq where
  pubid : String
  ts : String
  content : String
deriving DecidableEq, Repr

/-- The record the `i`-th element of a write sequence produces (0-based
position `i`, modification time `i + 1`). -/
def recOfWrite (rin : String) (i : Nat) (w : WriteReq) : SnapRec :=
  ⟨mkFilename rin w.pubid w.ts, w.pubid, w.content, i + 1⟩

/-- The chronological list of records a write sequence creates, oldest
first. -/
def writeRecsFrom (rin : String) (n : Nat) : List WriteReq → Store
  | [] => []
  | w :: ws => ⟨mkFilename rin w.pubid w.ts, w.pubid, w.content, n⟩ ::
      writeRecsFrom rin (n + 1) ws

/-- All records of the sequence, with modification times starting at 1. -/
def writeRecs (rin : String) (ws : List WriteReq) : Store :=
  writeRecsFrom rin 1 ws

/-- Run the write-and-sweep cycles from a store, numbering writes from `n`. -/
def runWritesFrom (keep_count : Nat) (rin : String) :
    Store → Nat → List WriteReq → Store
  | st, _, [] => st
  | st, n, w :: ws =>
    runWritesFrom keep_count rin
      (save_rin_xml keep_count rin w.pubid w.content w.ts n st).store (n + 1) ws

/-- Run a whole sequence of write-and-sweep cycles on an initially empty
directory. -/
def runWrites (keep_count : Nat) (rin : String) (ws : List WriteReq) : Store :=
  runWritesFrom keep_count rin [] 1 ws

/-! ## Removable spans: when is a text a fixed point of the normalizer? -/

/-- Does some position of `s` start a `\s+NAME=["'][^"']*["']` match? -/
def hasAttrMatch (name : List Char) (ci : Bool) : List Char → Bool
  | [] => false
  | c :: cs => (attrMatchAt name ci (c :: cs)).isSome || hasAttrMatch name ci cs

/-- Does some position of `s` start a `<!--.*?-->` match? -/
def hasComment : List Char → Bool
  | [] => false
  | c :: cs => (commentMatchAt (c :: cs)).isSome || hasComment cs

/-- `s` contains no span any of the seven normalization passes would
remove. -/
def noRemovable (s : List Char) : Bool :=
  !hasAttrMatch "RUN_DATE".data false s && !hasAttrMatch "run_date".data true s &&
  !hasAttrMatch "RUNDATE".data false s && !hasAttrMatch "rundate".data true s &&
  !hasAttrMatch "timestamp".data true s && !hasAttrMatch "generated".data true s &&
  !hasComment s

theorem subAttrGo_of_not_has (name : List Char) (ci : Bool) :
    ∀ (s : List Char) (f : Nat), hasAttrMatch name ci s = false →
      subAttrGo name ci f s = s := by
  intro s
  induction s with
  | nil => intro f _; cases f <;> rfl
  | cons c cs ih =>
    intro f h
    simp only [hasAttrMatch, Bool.or_eq_false_iff] at h
    cases f with
    | zero => rfl
    | succ f =>
      cases hm : attrMatchAt name ci (c :: cs) with
      | some rest => rw [hm] at h; simp at h
      | none => simp only [subAttrGo, hm, ih f h.2]

theorem subAttr_of_not_has (name : String) (ci : Bool) (s : List Char)
    (h : hasAttrMatch name.data ci s = false) : subAttr name ci s = s :=
  subAttrGo_of_not_has name.data ci s s.length h

theorem subCommentsGo_of_not_has :
    ∀ (s : List Char) (f : Nat), hasComment s = false →
      subCommentsGo f s = s := by
  intro s
  induction s with
  | nil => intro f _; cases f <;> rfl
  | cons c cs ih =>
    intro f h
    simp only [hasComment, Bool.or_eq_false_iff] at h
    cases f with
    | zero => rfl
    | succ f =>
      cases hm : commentMatchAt (c :: cs) with
      | some rest => rw [hm] at h; simp at h
      | none => simp only [subCommentsGo, hm, ih f h.2]

theorem subComments_of_not_has (s : List Char) (h : hasComment s = false) :
    subComments s = s :=
  subCommentsGo_of_not_has s s.length h

/-- A text with no removable span is a fixed point of the normalizer. -/
theorem normalizeCore_of_noRemovable (s : List Char)
    (h : noRemovable s = true) : normalizeCore s = s := by
  simp only [noRemovable, Bool.and_eq_true, Bool.not_eq_true',
    Bool.not_eq_true] at h
  obtain ⟨⟨⟨⟨⟨⟨h1, h2⟩, h3⟩, h4⟩, h5⟩, h6⟩, h7⟩ := h
  simp only [normalizeCore]
  rw [subAttr_of_not_has _ _ _ h1, subAttr_of_not_has _ _ _ h2,
    subAttr_of_not_has _ _ _ h3, subAttr_of_not_has _ _ _ h4,
    subAttr_of_not_has _ _ _ h5, subAttr_of_not_has _ _ _ h6,
    subComments_of_not_has _ h7]

/-- C3, the claim as stated, refuted: removing the inner comment of
`<!-<!--c-->-x-->` splices the remaining characters into a new comment
`<!--x-->`, which a second normalization pass removes. -/
theorem c3_counterexample :
    normalize_xml_for_comparison
        (normalize_xml_for_comparison "<!-<!--c-->-x-->") ≠
      normalize_xml_for_comparison "<!-<!--c-->-x-->" := by
  decide

/-! A removal pass that finds a match strictly shortens the text: together
with the fixed-point direction above, being removal-free exactly
characterizes the texts on which the normalizer is a no-op. -/

/-!  A removal pass that finds a match strictly shortens the text; together
with the fixed-point direction above this exactly characterizes the texts on
which the normalizer is a no-op. -/

theorem matchName_some_le {ci : Bool} : ∀ (p r r1 : List Char),
    matchName ci p r = some r1 → r1.length ≤ r.length := by
  intro p
  induction p with
  | nil =>
    intro r r1 h
    simp only [matchName, Option.some.injEq] at h
    subst h
    exact Nat.le_refl _
  | cons x ps ih =>
    intro r r1 h
    cases r with
    | nil => simp [matchName] at h
    | cons c cs =>
      simp only [matchName] at h
      by_cases hc : lcEq ci x c = true
      · rw [if_pos hc] at h
        exact Nat.le_succ_of_le (ih cs r1 h)
      · rw [if_neg hc] at h
        cases h

theorem attrMatchAt_some_lt {name : List Char} {ci : Bool}
    {s rest : List Char} (h : attrMatchAt name ci s = some rest) :
    rest.length < s.length := by
  simp only [attrMatchAt] at h
  split at h
  · cases h
  next hws =>
    have hdrop : (s.dropWhile pyWS).length < s.length := by
      have hlen : (s.takeWhile pyWS).length + (s.dropWhile pyWS).length =
          s.length := by
        rw [← List.length_append, List.takeWhile_append_dropWhile]
      have hpos : 0 < (s.takeWhile pyWS).length := by
        cases htw : s.takeWhile pyWS with
        | nil => rw [htw] at hws; simp at hws
        | cons _ _ => simp [htw]
      omega
    split at h
    · cases h
    next r1 hm =>
      have hr1 := matchName_some_le name (s.dropWhile pyWS) r1 hm
      split at h
      case _ r2 =>
        split at h
        case _ q r3 =>
          split at h
          · split at h
            case _ q2 r4 hd =>
              split at h
              · injection h with h
                subst h
                have h4 : (q2 :: r4).length ≤ r3.length := by
                  rw [← hd]
                  exact (List.dropWhile_sublist _).length_le
                simp only [List.length_cons] at hr1 h4
                omega
              · cases h
            case _ => cases h
          · cases h
        case _ => cases h
      case _ => cases h

theorem findAfterClose_some_lt : ∀ (r rest : List Char),
    findAfterClose r = some rest → rest.length < r.length := by
  intro r
  induction r using findAfterClose.induct <;> intro rest h <;>
    simp_all [findAfterClose] <;> omega

theorem commentMatchAt_some_lt : ∀ (s rest : List Char),
    commentMatchAt s = some rest → rest.length < s.length := by
  intro s rest h
  rw [commentMatchAt.eq_def] at h
  split at h
  next rest2 =>
    have := findAfterClose_some_lt rest2 rest h
    simp only [List.length_cons]
    omega
  next => cases h

theorem subAttrGo_length_le (name : List Char) (ci : Bool) :
    ∀ (f : Nat) (s : List Char), (subAttrGo name ci f s).length ≤ s.length := by
  intro f
  induction f with
  | zero => intro s; exact Nat.le_refl _
  | succ f ih =>
    intro s
    cases s with
    | nil => exact Nat.le_refl _
    | cons c cs =>
      cases hm : attrMatchAt name ci (c :: cs) with
      | some rest =>
        have hlt := attrMatchAt_some_lt hm
        have := ih rest
        simp only [subAttrGo, hm]
        omega
      | none =>
        have := ih cs
        simp only [subAttrGo, hm, List.length_cons]
        omega

theorem subAttrGo_length_lt (name : List Char) (ci : Bool) :
    ∀ (s : List Char) (f : Nat), s.length ≤ f →
      hasAttrMatch name ci s = true →
      (subAttrGo name ci f s).length < s.length := by
  intro s
  induction s with
  | nil => intro f _ h; simp [hasAttrMatch] at h
  | cons c cs ih =>
    intro f hf h
    cases f with
    | zero => simp at hf
    | succ f =>
      cases hm : attrMatchAt name ci (c :: cs) with
      | some rest =>
        have hlt := attrMatchAt_some_lt hm
        have hle := subAttrGo_length_le name ci f rest
        simp only [subAttrGo, hm]
        omega
      | none =>
        have h2 : hasAttrMatch name ci cs = true := by
          simpa [hasAttrMatch, hm] using h
        have := ih f (by simp only [List.length_cons] at hf; omega) h2
        simp only [subAttrGo, hm, List.length_cons]
        omega

theorem subCommentsGo_length_le :
    ∀ (f : Nat) (s : List Char), (subCommentsGo f s).length ≤ s.length := by
  intro f
  induction f with
  | zero => intro s; exact Nat.le_refl _
  | succ f ih =>
    intro s
    cases s with
    | nil => exact Nat.le_refl _
    | cons c cs =>
      cases hm : commentMatchAt (c :: cs) with
      | some rest =>
        have hlt := commentMatchAt_some_lt (c :: cs) rest hm
        have := ih rest
        simp only [subCommentsGo, hm]
        omega
      | none =>
        have := ih cs
        simp only [subCommentsGo, hm, List.length_cons]
        omega

theorem subCommentsGo_length_lt :
    ∀ (s : List Char) (f : Nat), s.length ≤ f → hasComment s = true →
      (subCommentsGo f s).length < s.length := by
  intro s
  induction s with
  | nil => intro f _ h; simp [hasComment] at h
  | cons c cs ih =>
    intro f hf h
    cases f with
    | zero => simp at hf
    | succ f =>
      cases hm : commentMatchAt (c :: cs) with
      | some rest =>
        have hlt := commentMatchAt_some_lt (c :: cs) rest hm
        have hle := subCommentsGo_length_le f rest
        simp only [subCommentsGo, hm]
        omega
      | none =>
        have h2 : hasComment cs = true := by
          simpa [hasComment, hm] using h
        have := ih f (by simp only [List.length_cons] at hf; omega) h2
        simp only [subCommentsGo, hm, List.length_cons]
        omega

theorem subAttr_length_le (name : String) (ci : Bool) (s : List Char) :
    (subAttr name ci s).length ≤ s.length :=
  subAttrGo_length_le name.data ci s.length s

theorem subAttr_length_lt (name : String) (ci : Bool) (s : List Char)
    (h : hasAttrMatch name.data ci s = true) :
    (subAttr name ci s).length < s.length :=
  subAttrGo_length_lt name.data ci s s.length (Nat.le_refl _) h

theorem subComments_length_le (s : List Char) :
    (subComments s).length ≤ s.length :=
  subCommentsGo_length_le s.length s

theorem subComments_length_lt (s : List Char) (h : hasComment s = true) :
    (subComments s).length < s.length :=
  subCommentsGo_length_lt s s.length (Nat.le_refl _) h

theorem normTail1_le (t : List Char) :
    (subComments (subAttr "generated" true (subAttr "timestamp" true
      (subAttr "rundate" true (subAttr "RUNDATE" false
        (subAttr "run_date" true t)))))).length ≤ t.length :=
  Nat.le_trans (subComments_length_le _) (Nat.le_trans (subAttr_length_le _ _ _)
    (Nat.le_trans (subAttr_length_le _ _ _) (Nat.le_trans (subAttr_length_le _ _ _)
      (Nat.le_trans (subAttr_length_le _ _ _) (subAttr_length_le _ _ _)))))

theorem normTail2_le (t : List Char) :
    (subComments (subAttr "generated" true (subAttr "timestamp" true
      (subAttr "rundate" true (subAttr "RUNDATE" false t))))).length ≤
      t.length :=
  Nat.le_trans (subComments_length_le _) (Nat.le_trans (subAttr_length_le _ _ _)
    (Nat.le_trans (subAttr_length_le _ _ _) (Nat.le_trans (subAttr_length_le _ _ _)
      (subAttr_length_le _ _ _))))

theorem normTail3_le (t : List Char) :
    (subComments (subAttr "generated" true (subAttr "timestamp" true
      (subAttr "rundate" true t)))).length ≤ t.length :=
  Nat.le_trans (subComments_length_le _) (Nat.le_trans (subAttr_length_le _ _ _)
    (Nat.le_trans (subAttr_length_le _ _ _) (subAttr_length_le _ _ _)))

theorem normTail4_le (t : List Char) :
    (subComments (subAttr "generated" true (subAttr "timestamp" true
      t))).length ≤ t.length :=
  Nat.le_trans (subComments_length_le _) (Nat.le_trans (subAttr_length_le _ _ _)
    (subAttr_length_le _ _ _))

theorem normTail5_le (t : List Char) :
    (subComments (subAttr "generated" true t)).length ≤ t.length :=
  Nat.le_trans (subComments_length_le _) (subAttr_length_le _ _ _)

/-- A text that still contains a removable span strictly shrinks under the
normalizer: the first pass whose pattern occurs in the text removes
something, earlier passes leave the text untouched, and no pass ever
lengthens the text. -/
theorem normalizeCore_lt_of_removable (s : List Char)
    (h : noRemovable s = false) : (normalizeCore s).length < s.length := by
  show (subComments (subAttr "generated" true (subAttr "timestamp" true
    (subAttr "rundate" true (subAttr "RUNDATE" false
      (subAttr "run_date" true (subAttr "RUN_DATE" false s))))))).length <
    s.length
  by_cases h1 : hasAttrMatch "RUN_DATE".data false s = true
  · have hstrict := subAttr_length_lt "RUN_DATE" false s h1
    have htail := normTail1_le (subAttr "RUN_DATE" false s)
    omega
  · rw [subAttr_of_not_has "RUN_DATE" false s (by simpa using h1)]
    by_cases h2 : hasAttrMatch "run_date".data true s = true
    · have hstrict := subAttr_length_lt "run_date" true s h2
      have htail := normTail2_le (subAttr "run_date" true s)
      omega
    · rw [subAttr_of_not_has "run_date" true s (by simpa using h2)]
      by_cases h3 : hasAttrMatch "RUNDATE".data false s = true
      · have hstrict := subAttr_length_lt "RUNDATE" false s h3
        have htail := normTail3_le (subAttr "RUNDATE" false s)
        omega
      · rw [subAttr_of_not_has "RUNDATE" false s (by simpa using h3)]
        by_cases h4 : hasAttrMatch "rundate".data true s = true
        · have hstrict := subAttr_length_lt "rundate" true s h4
          have htail := normTail4_le (subAttr "rundate" true s)
          omega
        · rw [subAttr_of_not_has "rundate" true s (by simpa using h4)]
          by_cases h5 : hasAttrMatch "timestamp".data true s = true
          · have hstrict := subAttr_length_lt "timestamp" true s h5
            have htail := normTail5_le (subAttr "timestamp" true s)
            omega
          · rw [subAttr_of_not_has "timestamp" true s (by simpa using h5)]
            by_cases h6 : hasAttrMatch "generated".data true s = true
            · have hstrict := subAttr_length_lt "generated" true s h6
              have htail := subComments_length_le (subAttr "generated" true s)
              omega
            · rw [subAttr_of_not_has "generated" true s (by simpa using h6)]
              by_cases h7 : hasComment s = true
              · exact subComments_length_lt s h7
              · exfalso
                have e1 : hasAttrMatch "RUN_DATE".data false s = false := by
                  simpa using h1
                have e2 : hasAttrMatch "run_date".data true s = false := by
                  simpa using h2
                have e3 : hasAttrMatch "RUNDATE".data false s = false := by
                  simpa using h3
                have e4 : hasAttrMatch "rundate".data true s = false := by
                  simpa using h4
                have e5 : hasAttrMatch "timestamp".data true s = false := by
                  simpa using h5
                have e6 : hasAttrMatch "generated".data true s = false := by
                  simpa using h6
                have e7 : hasComment s = false := by simpa using h7
                simp only [noRemovable, e1, e2, e3, e4, e5, e6, e7] at h
                simp at h

/-- The normalizer fixes a text exactly when the text has no removable
span. -/
theorem normalizeCore_fixed_iff (s : List Char) :
    normalizeCore s = s ↔ noRemovable s = true := by
  constructor
  · intro he
    by_contra hn
    have hf : noRemovable s = false := by simpa using hn
    have hlt := normalizeCore_lt_of_removable s hf
    rw [he] at hlt
    omega
  · exact normalizeCore_of_noRemovable s

theorem normalize_def (X : String) :
    normalize_xml_for_comparison X = ⟨normalizeCore X.data⟩ := rfl

theorem data_normalize (X : String) :
    (normalize_xml_for_comparison X).data = normalizeCore X.data := rfl

/-- C3 (amended): re-running the normalizer on its own output is a no-op
precisely when that output contains no remaining removable span (no
volatile-attribute match and no comment block); because a removal can splice
a new removable span together, normalization is not idempotent in general —
a second pass then strictly removes further text. -/
theorem c3_normalize_idempotent_iff (T : String) :
    normalize_xml_for_comparison (normalize_xml_for_comparison T) =
      normalize_xml_for_comparison T ↔
    noRemovable (normalize_xml_for_comparison T).data = true := by
  rw [data_normalize]
  constructor
  · intro he
    have hd := congrArg String.data he
    rw [data_normalize, data_normalize] at hd
    exact (normalizeCore_fixed_iff _).mp hd
  · intro hn
    have hfix := (normalizeCore_fixed_iff (normalizeCore T.data)).mpr hn
    rw [normalize_def (normalize_xml_for_comparison T), data_normalize, hfix,
      normalize_def T]

/-! ## Retention: sorting facts and the write-and-sweep invariant -/

theorem orderedInsert_of_sorted_cons {a : SnapRec} {l : Store}
    (h : List.Sorted mtimeGe (a :: l)) :
    List.orderedInsert mtimeGe a l = a :: l := by
  cases l with
  | nil => rfl
  | cons b m =>
    exact List.orderedInsert_of_le _ _
      (List.rel_of_sorted_cons h b (List.mem_cons_self b m))

/-- Inserting a strictly newer record into a newest-first store puts it in
front. -/
theorem insertionSort_append_max {l : Store} {x : SnapRec}
    (hs : List.Sorted mtimeGe l) (hlt : ∀ r ∈ l, r.mtime < x.mtime) :
    List.insertionSort mtimeGe (l ++ [x]) = x :: l := by
  induction l with
  | nil => rfl
  | cons a l ih =>
    rw [List.cons_append, List.insertionSort,
      ih hs.of_cons (fun r hr => hlt r (List.mem_cons_of_mem a hr))]
    show List.orderedInsert mtimeGe a (x :: l) = x :: a :: l
    rw [List.orderedInsert, if_neg, orderedInsert_of_sorted_cons hs]
    exact Nat.not_le.mpr (hlt a (List.mem_cons_self a l))

/-- A write-and-sweep cycle with a fresh filename and a strictly newer
modification time prepends the new record and truncates to the keep count. -/
theorem save_rin_xml_step (keep_count : Nat) (rin pubid content ts : String)
    (now : Nat) (st : Store)
    (hfn : ∀ r ∈ st, r.filename ≠ mkFilename rin pubid ts)
    (hs : List.Sorted mtimeGe st)
    (hlt : ∀ r ∈ st, r.mtime < now) :
    (save_rin_xml keep_count rin pubid content ts now st).store =
      ((⟨mkFilename rin pubid ts, pubid, content, now⟩ : SnapRec) :: st).take
        keep_count := by
  have hany : st.any (fun x => x.filename = mkFilename rin pubid ts) = false := by
    simp only [List.any_eq_false, decide_eq_true_eq]
    exact hfn
  have hsort := insertionSort_append_max
    (x := ⟨mkFilename rin pubid ts, pubid, content, now⟩) hs hlt
  simp only [save_rin_xml, writeFile, hany, Bool.false_eq_true, if_false,
    cleanup_old_files, hsort]

theorem take_cons_take (k : Nat) (x : SnapRec) (l : Store) :
    (x :: l.take k).take k = (x :: l).take k := by
  cases k with
  | zero => rfl
  | succ k =>
    simp only [List.take_succ_cons, List.take_take, Nat.min_self,
      Nat.min_eq_left (Nat.le_succ k)]

theorem writeRecsFrom_append (rin : String) (ws : List WriteReq) (w : WriteReq) :
    ∀ n, writeRecsFrom rin n (ws ++ [w]) =
      writeRecsFrom rin n ws ++
        [⟨mkFilename rin w.pubid w.ts, w.pubid, w.content, n + ws.length⟩] := by
  induction ws with
  | nil => intro n; simp [writeRecsFrom]
  | cons v ws ih =>
    intro n
    show (⟨mkFilename rin v.pubid v.ts, v.pubid, v.content, n⟩ : SnapRec) ::
        writeRecsFrom rin (n + 1) (ws ++ [w]) = _
    rw [ih (n + 1)]
    simp [writeRecsFrom, List.cons_append, Nat.add_comm, Nat.add_assoc,
      Nat.add_left_comm]

theorem length_writeRecsFrom (rin : String) (ws : List WriteReq) :
    ∀ n, (writeRecsFrom rin n ws).length = ws.length := by
  induction ws with
  | nil => intro n; rfl
  | cons w ws ih => intro n; simp [writeRecsFrom, ih (n + 1)]

/-- Any record of a write sequence carries a modification time inside the
sequence's range and one of the sequence's filenames. -/
theorem mem_writeRecsFrom {rin : String} {ws : List WriteReq} :
    ∀ {n : Nat} {r : SnapRec}, r ∈ writeRecsFrom rin n ws →
      n ≤ r.mtime ∧ r.mtime < n + ws.length ∧
        r.filename ∈ ws.map (fun w => mkFilename rin w.pubid w.ts) := by
  induction ws with
  | nil => intro n r h; cases h
  | cons w ws ih =>
    intro n r h
    rcases List.mem_cons.mp h with h | h
    · subst h
      exact ⟨Nat.le_refl n, by simp [Nat.lt_add_of_pos_right], by simp⟩
    · obtain ⟨h1, h2, h3⟩ := ih h
      refine ⟨Nat.le_of_succ_le h1, ?_, by simp [h3]⟩
      simpa [Nat.add_comm, Nat.add_assoc, Nat.add_left_comm] using h2

/-- The chronological record list has nondecreasing modification times. -/
theorem pairwise_le_writeRecsFrom (rin : String) (ws : List WriteReq) :
    ∀ n, List.Pairwise (fun a b : SnapRec => a.mtime ≤ b.mtime)
      (writeRecsFrom rin n ws) := by
  induction ws with
  | nil => intro n; exact List.Pairwise.nil
  | cons w ws ih =>
    intro n
    refine List.Pairwise.cons (fun r hr => ?_) (ih (n + 1))
    exact Nat.le_of_succ_le (mem_writeRecsFrom hr).1

theorem sorted_take_rev_writeRecs (rin : String) (ws : List WriteReq)
    (keep_count : Nat) :
    List.Sorted mtimeGe (((writeRecs rin ws).reverse).take keep_count) := by
  have h1 : List.Pairwise mtimeGe (writeRecs rin ws).reverse := by
    rw [List.pairwise_reverse]
    exact pairwise_le_writeRecsFrom rin ws 1
  exact h1.sublist (List.take_sublist _ _)

theorem runWritesFrom_append (keep_count : Nat) (rin : String)
    (ws : List WriteReq) (w : WriteReq) :
    ∀ st n, runWritesFrom keep_count rin st n (ws ++ [w]) =
      (save_rin_xml keep_count rin w.pubid w.content w.ts (n + ws.length)
        (runWritesFrom keep_count rin st n ws)).store := by
  induction ws with
  | nil => intro st n; rfl
  | cons v ws ih =>
    intro st n
    show runWritesFrom keep_count rin
        (save_rin_xml keep_count rin v.pubid v.content v.ts n st).store (n + 1)
        (ws ++ [w]) = _
    rw [ih _ (n + 1)]
    have harith : n + 1 + ws.length = n + (v :: ws).length := by
      simp [List.length_cons]; omega
    rw [harith]
    conv_rhs => rw [runWritesFrom]

/-- C1: after any sequence of write-and-sweep cycles on one identifier with
pairwise distinct filenames (distinct second-granularity timestamps), the
retained records are exactly the `keep_count` most recently written ones,
newest first, and their number is `min keep_count totalWrites`. -/
theorem c1_retention_invariant (keep_count : Nat) (rin : String)
    (ws : List WriteReq)
    (hfn : (ws.map (fun w => mkFilename rin w.pubid w.ts)).Nodup) :
    runWrites keep_count rin ws =
      ((writeRecs rin ws).reverse).take keep_count ∧
    (runWrites keep_count rin ws).length = min keep_count ws.length := by
  have main : runWrites keep_count rin ws =
      ((writeRecs rin ws).reverse).take keep_count := by
    induction ws using List.reverseRecOn with
    | nil => simp [runWrites, runWritesFrom, writeRecs, writeRecsFrom]
    | append_singleton ws w ih =>
      have hm : (ws.map (fun w => mkFilename rin w.pubid w.ts)).Nodup ∧
          mkFilename rin w.pubid w.ts ∉
            ws.map (fun w => mkFilename rin w.pubid w.ts) := by
        rw [List.map_append] at hfn
        have := List.nodup_append.mp hfn
        exact ⟨this.1, fun hmem => this.2.2 hmem (by simp)⟩
      have ih' := ih hm.1
      show runWritesFrom keep_count rin [] 1 (ws ++ [w]) = _
      rw [runWritesFrom_append]
      show (save_rin_xml keep_count rin w.pubid w.content w.ts (1 + ws.length)
          (runWrites keep_count rin ws)).store = _
      rw [ih', save_rin_xml_step]
      · have hwr : writeRecs rin (ws ++ [w]) = writeRecs rin ws ++
            [⟨mkFilename rin w.pubid w.ts, w.pubid, w.content, 1 + ws.length⟩] :=
          writeRecsFrom_append rin ws w 1
        rw [hwr, List.reverse_append, List.reverse_singleton,
          List.singleton_append]
        exact take_cons_take keep_count _ _
      · intro r hr
        have h3 := (mem_writeRecsFrom (List.mem_reverse.mp
          (List.mem_of_mem_take hr))).2.2
        exact fun he => hm.2 (he ▸ h3)
      · exact sorted_take_rev_writeRecs rin ws keep_count
      · intro r hr
        have h2 := (mem_writeRecsFrom (List.mem_reverse.mp
          (List.mem_of_mem_take hr))).2.1
        simpa [Nat.add_comm] using h2
  refine ⟨main, ?_⟩
  rw [main]
  simp [List.length_take, writeRecs, length_writeRecsFrom]

/-- Witness for C1: five writes with retention 2 keep exactly the last
two records, newest first (spec scenario 5). -/
theorem c1_retention_invariant_witness :
    ((([⟨"202410", "t1", "c1"⟩, ⟨"202410", "t2", "c2"⟩, ⟨"202504", "t3", "c3"⟩,
        ⟨"202504", "t4", "c4"⟩, ⟨"202510", "t5", "c5"⟩] :
          List WriteReq).map (fun w => mkFilename "2050-AB01" w.pubid w.ts)).Nodup) ∧
    runWrites 2 "2050-AB01"
        [⟨"202410", "t1", "c1"⟩, ⟨"202410", "t2", "c2"⟩, ⟨"202504", "t3", "c3"⟩,
          ⟨"202504", "t4", "c4"⟩, ⟨"202510", "t5", "c5"⟩] =
      [⟨"rin_2050-AB01_202510_t5.xml", "202510", "c5", 5⟩,
        ⟨"rin_2050-AB01_202504_t4.xml", "202504", "c4", 4⟩] ∧
    (runWrites 2 "2050-AB01"
        [⟨"202410", "t1", "c1"⟩, ⟨"202410", "t2", "c2"⟩, ⟨"202504", "t3", "c3"⟩,
          ⟨"202504", "t4", "c4"⟩, ⟨"202510", "t5", "c5"⟩]).length = min 2 5 := by
  have h := c1_retention_invariant 2 "2050-AB01"
    [⟨"202410", "t1", "c1"⟩, ⟨"202410", "t2", "c2"⟩, ⟨"202504", "t3", "c3"⟩,
      ⟨"202504", "t4", "c4"⟩, ⟨"202510", "t5", "c5"⟩] (by decide)
  exact ⟨by decide, by rw [h.1]; decide, by rw [h.2]; rfl⟩

/-! ## Remaining store and orchestrator properties -/

/-- C10: with a retention count of zero, the sweep after a write deletes
every stored snapshot file for the identifier, including the one just
written, so the directory is empty after every write-and-sweep cycle and the
next latest-snapshot lookup reports absence (a fresh baseline). -/
theorem c10_keep_zero_retains_nothing (rin pubid content ts : String)
    (now : Nat) (st : Store) :
    (save_rin_xml 0 rin pubid content ts now st).store = [] ∧
    (cleanup_old_files 0 st).1 = [] ∧
    (get_latest_file_for_rin []).2 = none := by
  refine ⟨?_, rfl, rfl⟩
  simp [save_rin_xml, cleanup_old_files]

/-- C4, the claim as stated, refuted: after writing batch `202510` and then
batch `202504` (batch ids can decrease across runs), the lookup returns the
first, older record — the filename sort puts the larger batch id first — even
though the second record has the strictly larger modification time. -/
theorem c4_counterexample :
    (get_latest_file_for_rin (runWrites 2 "2050-AB01"
        [⟨"202510", "20250101_000000", "c1"⟩,
          ⟨"202504", "20260101_000000", "c2"⟩])).2 =
      some ⟨"rin_2050-AB01_202510_20250101_000000.xml", "202510", "c1", 1⟩ ∧
    (⟨"rin_2050-AB01_202504_20260101_000000.xml", "202504", "c2", 2⟩ :
        SnapRec) ∈
      runWrites 2 "2050-AB01"
        [⟨"202510", "20250101_000000", "c1"⟩,
          ⟨"202504", "20260101_000000", "c2"⟩] ∧
    (⟨"rin_2050-AB01_202510_20250101_000000.xml", "202510", "c1", 1⟩ :
        SnapRec).mtime <
      (⟨"rin_2050-AB01_202504_20260101_000000.xml", "202504", "c2", 2⟩ :
        SnapRec).mtime := by
  decide

/-- C4 (amended): the latest-snapshot lookup returns "absent" exactly when no
snapshot exists, and otherwise returns the stored record whose filename is
lexicographically greatest (the name embeds batch id, then timestamp); this
is the most recently written record only when batch ids do not decrease
across writes, not in general by modification time. -/
theorem c4_latest_lookup (st : Store) :
    ((get_latest_file_for_rin st).2 = none ↔ st = []) ∧
    (∀ f, (get_latest_file_for_rin st).2 = some f →
      f ∈ st ∧ ∀ r ∈ st, strLe r.filename f.filename = true) := by
  cases hs : st.insertionSort nameGe with
  | nil =>
    have hst : st = [] := by
      have := List.perm_insertionSort nameGe st
      rw [hs] at this
      exact (List.Perm.nil_eq this).symm
    subst hst
    exact ⟨by simp [get_latest_file_for_rin], fun f hf => by
      simp [get_latest_file_for_rin] at hf⟩
  | cons f rest =>
    have hmem : ∀ r ∈ st, r ∈ f :: rest := by
      intro r hr
      rw [← hs]
      exact (List.mem_insertionSort nameGe).mpr hr
    have hsorted : List.Sorted nameGe (f :: rest) := by
      rw [← hs]
      exact List.sorted_insertionSort nameGe st
    have hres : (get_latest_file_for_rin st).2 = some f := by
      simp [get_latest_file_for_rin, hs]
    constructor
    · rw [hres]
      constructor
      · intro h; cases h
      · intro h
        subst h
        simp [List.insertionSort] at hs
    · intro g hg
      rw [hres] at hg
      cases hg
      refine ⟨?_, ?_⟩
      · have : f ∈ st.insertionSort nameGe := by rw [hs]; exact List.mem_cons_self f rest
        exact (List.mem_insertionSort nameGe).mp this
      · intro r hr
        rcases List.mem_cons.mp (hmem r hr) with h | h
        · subst h; exact lexLe_refl _
        · exact List.rel_of_sorted_cons hsorted r h

/-- Witness for the amended C4 at a concrete two-record directory. -/
theorem c4_latest_lookup_witness :
    ((get_latest_file_for_rin
        [⟨"rin_R_202504_t1.xml", "202504", "c1", 1⟩,
          ⟨"rin_R_202510_t2.xml", "202510", "c2", 2⟩]).2 =
      some ⟨"rin_R_202510_t2.xml", "202510", "c2", 2⟩) ∧
    (⟨"rin_R_202510_t2.xml", "202510", "c2", 2⟩ : SnapRec) ∈
      ([⟨"rin_R_202504_t1.xml", "202504", "c1", 1⟩,
        ⟨"rin_R_202510_t2.xml", "202510", "c2", 2⟩] : Store) ∧
    (∀ r ∈ ([⟨"rin_R_202504_t1.xml", "202504", "c1", 1⟩,
        ⟨"rin_R_202510_t2.xml", "202510", "c2", 2⟩] : Store),
      strLe r.filename
        (⟨"rin_R_202510_t2.xml", "202510", "c2", 2⟩ : SnapRec).filename = true) := by
  have h := (c4_latest_lookup
    [⟨"rin_R_202504_t1.xml", "202504", "c1", 1⟩,
      ⟨"rin_R_202510_t2.xml", "202510", "c2", 2⟩]).2
    ⟨"rin_R_202510_t2.xml", "202510", "c2", 2⟩ (by decide)
  exact ⟨by decide, h.1, h.2⟩

/-- C2: with a stored previous snapshot and a successfully fetched document,
the pass reports a change exactly when the two fingerprints differ, in which
case it hands the identifier, both batch ids, the computed diff and both file
locations to the notifier; when the fingerprints match it reports no
change. -/
theorem c2_change_detection (keep_count : Nat) (rin : String)
    (catalogResponse : Option (List String)) (year : Nat)
    (current_xml ts : String) (now : Nat) (st : Store)
    (latest_pubid : String) (restPubids : List String)
    (hagendas : get_available_agendas catalogResponse year =
      latest_pubid :: restPubids)
    (previous_pubid : Option String) (previous_file : SnapRec)
    (hprev : get_latest_file_for_rin st = (previous_pubid, some previous_file))
    (hne : current_xml.data.isEmpty = false)
    (hok : (strContains (strLower current_xml) "not found" ||
      decide (current_xml.length < 100)) = false) :
    ((monitor_rin keep_count rin catalogResponse year (some current_xml) ts now
        st).outcome = .changeDetected ↔
      get_content_hash current_xml ≠ get_content_hash previous_file.content) ∧
    (get_content_hash current_xml = get_content_hash previous_file.content →
      (monitor_rin keep_count rin catalogResponse year (some current_xml) ts now
        st).outcome = .noChange) ∧
    (get_content_hash current_xml ≠ get_content_hash previous_file.content →
      Event.notified rin previous_pubid latest_pubid
          (compare_xml previous_file.content current_xml)
          previous_file.filename (mkFilename rin latest_pubid ts) ∈
        (monitor_rin keep_count rin catalogResponse year (some current_xml) ts
          now st).events) := by
  by_cases hh : get_content_hash current_xml =
      get_content_hash previous_file.content
  · simp [monitor_rin, hagendas, hprev, hne, hok, hh]
  · simp only [monitor_rin, hagendas, hprev, hne, hok, hh, Bool.false_eq_true,
      if_false, ne_eq, not_false_eq_true, if_true]
    refine ⟨by simp, by simp [hh], fun _ => ?_⟩
    simp [save_rin_xml]

set_option maxRecDepth 40000 in
/-- Witness for C2 at a concrete store and fetched document. -/
theorem c2_change_detection_witness :
    ((monitor_rin 2 "2050-AB01" none 2025
        (some (String.mk (List.replicate 120 'd'))) "t2" 2
        [⟨"rin_2050-AB01_202510_t1.xml", "202510", "c1", 1⟩]).outcome =
        .changeDetected ↔
      get_content_hash (String.mk (List.replicate 120 'd')) ≠
        get_content_hash "c1") := by
  have h := c2_change_detection 2 "2050-AB01" none 2025
    (String.mk (List.replicate 120 'd')) "t2" 2
    [⟨"rin_2050-AB01_202510_t1.xml", "202510", "c1", 1⟩]
    "202510" ["202504", "202410", "202404"] (by decide)
    (some "202510") ⟨"rin_2050-AB01_202510_t1.xml", "202510", "c1", 1⟩
    (by decide) (by decide) (by decide)
  exact h.1

/-- C5: on every successful fetch (nonempty response, no "not found" marker,
length at least the threshold) a snapshot file is written — in the change
case, the no-change case and the first-run baseline case alike. -/
theorem c5_always_writes (keep_count : Nat) (rin : String)
    (catalogResponse : Option (List String)) (year : Nat)
    (current_xml ts : String) (now : Nat) (st : Store)
    (latest_pubid : String) (restPubids : List String)
    (hagendas : get_available_agendas catalogResponse year =
      latest_pubid :: restPubids)
    (hne : current_xml.data.isEmpty = false)
    (hok : (strContains (strLower current_xml) "not found" ||
      decide (current_xml.length < 100)) = false) :
    Event.wrote (mkFilename rin latest_pubid ts) ∈
      (monitor_rin keep_count rin catalogResponse year (some current_xml) ts now
        st).events := by
  simp only [monitor_rin, hagendas, hne, hok, Bool.false_eq_true, if_false]
  cases hprev : get_latest_file_for_rin st with
  | mk previous_pubid opt =>
    cases opt with
    | none => simp [save_rin_xml]
    | some previous_file =>
      by_cases hh : get_content_hash current_xml =
          get_content_hash previous_file.content
      · simp [hh, save_rin_xml]
      · simp [hh, save_rin_xml]

/-- Witness for C5: the baseline case on an empty directory. -/
theorem c5_always_writes_witness :
    Event.wrote (mkFilename "2050-AB01" "202510" "t1") ∈
      (monitor_rin 2 "2050-AB01" none 2025
        (some (String.mk (List.replicate 120 'd'))) "t1" 1 []).events :=
  c5_always_writes 2 "2050-AB01" none 2025 (String.mk (List.replicate 120 'd'))
    "t1" 1 [] "202510" ["202504", "202410", "202404"] (by decide) (by decide)
    (by decide)

/-- C7, the claim as stated, refuted: an empty fetched response has length
`0 < 100`, below the minimum content-length threshold, yet the pass ends as a
fetch failure (`if not current_xml`), not as document-not-found. -/
theorem c7_counterexample :
    (monitor_rin 2 "2050-AB01" none 2025 (some "") "t1" 1 []).outcome =
        Outcome.fetchFailed ∧
    (monitor_rin 2 "2050-AB01" none 2025 (some "") "t1" 1 []).outcome ≠
        Outcome.notFound ∧
    ("" : String).length < 100 := by
  exact ⟨rfl, by decide, by decide⟩

/-- C7 (amended): if the fetched response is nonempty and contains the
"not found" marker or is shorter than the minimum content-length threshold,
the pass ends as document-not-found: no snapshot is written, the store is
untouched, no effect happens, and the pass merely returns to the caller's
loop (an empty response instead ends as a fetch failure, likewise without
effects). -/
theorem c7_not_found_no_write (keep_count : Nat) (rin : String)
    (catalogResponse : Option (List String)) (year : Nat)
    (current_xml ts : String) (now : Nat) (st : Store)
    (latest_pubid : String) (restPubids : List String)
    (hagendas : get_available_agendas catalogResponse year =
      latest_pubid :: restPubids)
    (hne : current_xml.data.isEmpty = false)
    (hbad : (strContains (strLower current_xml) "not found" ||
      decide (current_xml.length < 100)) = true) :
    monitor_rin keep_count rin catalogResponse year (some current_xml) ts now
        st = ⟨.notFound, false, st, []⟩ := by
  simp [monitor_rin, hagendas, hne, hbad]

/-- Witness for the amended C7: a one-character response. -/
theorem c7_not_found_no_write_witness :
    monitor_rin 2 "2050-AB01" none 2025 (some "x") "t1" 1
        [⟨"rin_2050-AB01_202510_t0.xml", "202510", "c0", 1⟩] =
      ⟨.notFound, false,
        [⟨"rin_2050-AB01_202510_t0.xml", "202510", "c0", 1⟩], []⟩ :=
  c7_not_found_no_write 2 "2050-AB01" none 2025 "x" "t1" 1
    [⟨"rin_2050-AB01_202510_t0.xml", "202510", "c0", 1⟩]
    "202510" ["202504", "202410", "202404"] (by decide) (by decide) (by decide)

/-- C6: whenever the catalog page is unreachable or malformed (the scrape
raises), or it yields no candidate publication batch ids, the resolver
returns the deterministic default generator's ids; the generator always
produces candidates, and the resolver is a total function — no error crosses
this boundary. -/
theorem c6_catalog_fallback (year : Nat) :
    get_available_agendas none year = generate_default_pubids year ∧
    (∀ hrefs, candidatePubids hrefs = [] →
      get_available_agendas (some hrefs) year = generate_default_pubids year) ∧
    generate_default_pubids year ≠ [] := by
  refine ⟨rfl, ?_, by simp [generate_default_pubids]⟩
  intro hrefs h
  simp [get_available_agendas, h]

/-- Witness for C6: a malformed page with no agenda links. -/
theorem c6_catalog_fallback_witness :
    candidatePubids ["<html>no agenda links</html>"] = [] ∧
    get_available_agendas (some ["<html>no agenda links</html>"]) 2025 =
      generate_default_pubids 2025 :=
  ⟨by decide, (c6_catalog_fallback 2025).2.1 _ (by decide)⟩

/-! ## Differ properties (C9)

The facts proved about the modelled `difflib` pipeline: splitting with kept
terminators is injective (joining the lines restores the text), equal line
sequences produce no diff, different line sequences produce a diff that
begins with the two fixed header lines. -/

theorem flatten_splitCore : ∀ (acc s : List Char),
    (splitCore acc s).flatten = acc.reverse ++ s := by
  intro acc s
  induction acc, s using splitCore.induct <;>
    simp_all [splitCore, List.isEmpty_iff]

theorem splitCore_inj {s t : List Char}
    (h : splitCore [] s = splitCore [] t) : s = t := by
  have hs := flatten_splitCore [] s
  have ht := flatten_splitCore [] t
  rw [h] at hs
  simpa using hs.symm.trans ht

theorem commonPreLen_self : ∀ l : List (List Char),
    commonPreLen l l = l.length := by
  intro l
  induction l with
  | nil => rfl
  | cons x xs ih => simp [commonPreLen, ih]

theorem commonPreLen_le : ∀ a b : List (List Char),
    commonPreLen a b ≤ a.length ∧ commonPreLen a b ≤ b.length := by
  intro a
  induction a with
  | nil => intro b; simp [commonPreLen]
  | cons x xs ih =>
    intro b
    cases b with
    | nil => simp [commonPreLen]
    | cons y ys =>
      by_cases h : x = y
      · have := ih ys
        simp only [commonPreLen, if_pos h, List.length_cons]
        omega
      · simp [commonPreLen, h]

theorem take_commonPreLen : ∀ a b : List (List Char),
    a.take (commonPreLen a b) = b.take (commonPreLen a b) := by
  intro a
  induction a with
  | nil => intro b; simp [commonPreLen]
  | cons x xs ih =>
    intro b
    cases b with
    | nil => simp [commonPreLen]
    | cons y ys =>
      by_cases h : x = y
      · subst h
        simp [commonPreLen, List.take_succ_cons, ih ys]
      · simp [commonPreLen, h]

theorem eq_of_commonPreLen_full {a b : List (List Char)}
    (ha : a.length ≤ commonPreLen a b) (hb : b.length ≤ commonPreLen a b) :
    a = b := by
  have h1 := (commonPreLen_le a b).1
  have h2 := (commonPreLen_le a b).2
  have hpa : commonPreLen a b = a.length := Nat.le_antisymm h1 ha
  have hpb : commonPreLen a b = b.length := Nat.le_antisymm h2 hb
  have ht := take_commonPreLen a b
  rw [hpa, List.take_length] at ht
  have hl : a.length = b.length := by omega
  rw [ht, hl, List.take_length]

theorem trimFirst_cons_ne {c : Opcode} (h : c.tag ≠ .equal)
    (rest : List Opcode) : trimFirst (c :: rest) = c :: rest := by
  obtain ⟨t, i1, i2, j1, j2⟩ := c
  cases t
  · exact absurd rfl h
  · rfl
  · rfl
  · rfl

theorem trimLast_cons_cons (c d : Opcode) (rest : List Opcode) :
    trimLast (c :: d :: rest) = c :: trimLast (d :: rest) := by
  obtain ⟨t, i1, i2, j1, j2⟩ := c
  cases t <;> rfl

theorem trimLast_singleton_ne {c : Opcode} (h : c.tag ≠ .equal) :
    trimLast [c] = [c] := by
  obtain ⟨t, i1, i2, j1, j2⟩ := c
  cases t
  · exact absurd rfl h
  · rfl
  · rfl
  · rfl

theorem singleEqual_of_ne {c : Opcode} (h : c.tag ≠ .equal) :
    singleEqual [c] = false := by
  obtain ⟨t, i1, i2, j1, j2⟩ := c
  cases t
  · exact absurd rfl h
  · rfl
  · rfl
  · rfl

theorem singleEqual_cons_cons (c d : Opcode) (rest : List Opcode) :
    singleEqual (c :: d :: rest) = false := by
  obtain ⟨t, i1, i2, j1, j2⟩ := c
  cases t <;> rfl

/-- When no `equal` opcode spans more than `2 * n = 6` lines, the grouping
loop never splits: it accumulates everything into one group, dropped only if
it is a single `equal` opcode. -/
theorem gatherGroups_no_split : ∀ (codes : List Opcode),
    (∀ c ∈ codes, c.tag = .equal → c.i2 - c.i1 ≤ 6) →
    ∀ group, gatherGroups codes group =
      if (group ++ codes).isEmpty || singleEqual (group ++ codes) then []
      else [group ++ codes] := by
  intro codes
  induction codes with
  | nil => intro _ group; simp [gatherGroups]
  | cons c rest ih =>
    intro hsmall group
    have hcond : (decide (c.tag = .equal) && decide (6 < c.i2 - c.i1)) = false := by
      by_cases ht : c.tag = .equal
      · have := hsmall c (List.mem_cons_self c rest) ht
        simp [ht]
        omega
      · simp [ht]
    show gatherGroups (c :: rest) group = _
    rw [gatherGroups]
    rw [if_neg (by rw [hcond]; exact Bool.false_ne_true)]
    rw [ih (fun d hd => hsmall d (List.mem_cons_of_mem c hd)) (group ++ [c])]
    rw [List.append_assoc, List.singleton_append]

/-- A single `equal` opcode is trimmed to a span of at most 3 lines and then
dropped: no group is emitted. -/
theorem grouped_single_equal (i1 i2 j1 j2 : Nat) :
    groupedOpcodes [⟨.equal, i1, i2, j1, j2⟩] = [] := by
  show gatherGroups (trimLast (trimFirst
    (if ([⟨.equal, i1, i2, j1, j2⟩] : List Opcode).isEmpty then
      [⟨.equal, 0, 1, 0, 1⟩] else [⟨.equal, i1, i2, j1, j2⟩]))) [] = []
  rw [if_neg (by simp)]
  show gatherGroups [⟨Tag.equal, max i1 (i2 - 3),
    min i2 (max i1 (i2 - 3) + 3), max j1 (j2 - 3),
    min j2 (max j1 (j2 - 3) + 3)⟩] [] = []
  rw [gatherGroups_no_split _ (by intro c hc _; simp at hc; subst hc; simp; omega) []]
  simp [singleEqual]

theorem myOpcodes_self (a : List (List Char)) (h : a ≠ []) :
    myOpcodes a a = [⟨.equal, 0, a.length, 0, a.length⟩] := by
  have hp := commonPreLen_self a
  have hpos : 0 < a.length := List.length_pos.mpr h
  simp [myOpcodes, hp, List.drop_length, commonPreLen, hpos]

theorem unifiedDiffLines_self (a : List (List Char)) :
    unifiedDiffLines a a = [] := by
  cases ha : a with
  | nil => rfl
  | cons x xs =>
    show (match groupedOpcodes (myOpcodes (x :: xs) (x :: xs)) with
      | [] => ([] : List (List Char))
      | gs => "--- Previous".data :: "+++ Current".data ::
          (gs.map (hunkLines (x :: xs) (x :: xs))).flatten) = []
    rw [myOpcodes_self (x :: xs) (by simp), grouped_single_equal]

/-- The diff line stream is empty or begins with the two fixed header
lines. -/
theorem unifiedDiffLines_shape (a b : List (List Char)) :
    unifiedDiffLines a b = [] ∨
    ∃ rest, unifiedDiffLines a b =
      "--- Previous".data :: "+++ Current".data :: rest := by
  cases hg : groupedOpcodes (myOpcodes a b) with
  | nil =>
    left
    show (match groupedOpcodes (myOpcodes a b) with
      | [] => ([] : List (List Char))
      | gs => "--- Previous".data :: "+++ Current".data ::
          (gs.map (hunkLines a b)).flatten) = []
    rw [hg]
  | cons g gs =>
    right
    refine ⟨((g :: gs).map (hunkLines a b)).flatten, ?_⟩
    show (match groupedOpcodes (myOpcodes a b) with
      | [] => ([] : List (List Char))
      | gs => "--- Previous".data :: "+++ Current".data ::
          (gs.map (hunkLines a b)).flatten) = _
    rw [hg]

theorem isPreL_append (p t : List Char) : isPreL p (p ++ t) = true := by
  induction p with
  | nil => rfl
  | cons c cs ih => simp [isPreL, ih]

theorem containsL_nil_sub : ∀ l : List Char, containsL [] l = true := by
  intro l
  cases l with
  | nil => rfl
  | cons c cs => simp [containsL, isPreL]

theorem containsL_parts : ∀ (pre sub post : List Char),
    containsL sub (pre ++ sub ++ post) = true := by
  intro pre
  induction pre with
  | nil =>
    intro sub post
    cases sub with
    | nil => exact containsL_nil_sub _
    | cons c cs =>
      show containsL (c :: cs) (c :: (cs ++ post)) = true
      rw [containsL]
      have h1 : isPreL (c :: cs) (c :: (cs ++ post)) = true := by
        rw [← List.cons_append]
        exact isPreL_append _ _
      rw [h1, Bool.true_or]
  | cons c cs ih =>
    intro sub post
    show containsL sub (c :: (cs ++ sub ++ post)) = true
    rw [containsL, ih sub post, Bool.or_true]

theorem eq_of_middles_nil {a b : List (List Char)}
    (h1 : (a.drop (commonPreLen a b)).length ≤
      commonPreLen (a.drop (commonPreLen a b)).reverse
        (b.drop (commonPreLen a b)).reverse)
    (h2 : (b.drop (commonPreLen a b)).length ≤
      commonPreLen (a.drop (commonPreLen a b)).reverse
        (b.drop (commonPreLen a b)).reverse) :
    a = b := by
  have hrev : (a.drop (commonPreLen a b)).reverse =
      (b.drop (commonPreLen a b)).reverse :=
    eq_of_commonPreLen_full (by rw [List.length_reverse]; exact h1)
      (by rw [List.length_reverse]; exact h2)
  have hdrop : a.drop (commonPreLen a b) = b.drop (commonPreLen a b) :=
    List.reverse_injective hrev
  calc a = a.take (commonPreLen a b) ++ a.drop (commonPreLen a b) :=
      (List.take_append_drop _ a).symm
    _ = b.take (commonPreLen a b) ++ b.drop (commonPreLen a b) := by
      rw [take_commonPreLen a b, hdrop]
    _ = b := List.take_append_drop _ b

theorem trimFirst_cons_eq (i1 i2 j1 j2 : Nat) (rest : List Opcode) :
    trimFirst (⟨.equal, i1, i2, j1, j2⟩ :: rest) =
      ⟨.equal, max i1 (i2 - 3), i2, max j1 (j2 - 3), j2⟩ :: rest := rfl

theorem trimLast_eq_singleton (i1 i2 j1 j2 : Nat) :
    trimLast [⟨.equal, i1, i2, j1, j2⟩] =
      [⟨.equal, i1, min i2 (i1 + 3), j1, min j2 (j1 + 3)⟩] := rfl

theorem groupedOpcodes_cons (c : Opcode) (rest : List Opcode) :
    groupedOpcodes (c :: rest) =
      gatherGroups (trimLast (trimFirst (c :: rest))) [] := by
  simp [groupedOpcodes]

/-- With at most one `equal` opcode on each side of a non-`equal` opcode, the
grouping loop emits exactly one group: the output is nonempty. -/
theorem groupedOpcodes_pre_mid_suf (mid : Opcode) (hmid : mid.tag ≠ .equal)
    (pre suf : List Opcode)
    (hpre : pre = [] ∨ ∃ i1 i2 j1 j2, pre = [⟨.equal, i1, i2, j1, j2⟩])
    (hsuf : suf = [] ∨ ∃ i1 i2 j1 j2, suf = [⟨.equal, i1, i2, j1, j2⟩]) :
    groupedOpcodes (pre ++ mid :: suf) ≠ [] := by
  rcases hpre with rfl | ⟨p1, p2, p3, p4, rfl⟩ <;>
    rcases hsuf with rfl | ⟨q1, q2, q3, q4, rfl⟩
  · simp only [List.nil_append]
    have hsm : ∀ c ∈ [mid], c.tag = .equal → c.i2 - c.i1 ≤ 6 := by
      intro c hc he
      simp only [List.mem_singleton] at hc
      subst hc
      exact absurd he hmid
    rw [groupedOpcodes_cons, trimFirst_cons_ne hmid,
      trimLast_singleton_ne hmid, gatherGroups_no_split _ hsm []]
    simp [singleEqual_of_ne hmid]
  · simp only [List.nil_append]
    rw [groupedOpcodes_cons, trimFirst_cons_ne hmid, trimLast_cons_cons,
      trimLast_eq_singleton]
    have hsm : ∀ c ∈ mid ::
        [(⟨.equal, q1, min q2 (q1 + 3), q3, min q4 (q3 + 3)⟩ : Opcode)],
        c.tag = .equal → c.i2 - c.i1 ≤ 6 := by
      intro c hc he
      rcases List.mem_cons.mp hc with rfl | hc2
      · exact absurd he hmid
      · simp only [List.mem_singleton] at hc2
        subst hc2
        simp only []
        omega
    rw [gatherGroups_no_split _ hsm []]
    simp [singleEqual_cons_cons]
  · rw [List.singleton_append, groupedOpcodes_cons, trimFirst_cons_eq]
    rw [trimLast_cons_cons, trimLast_singleton_ne hmid]
    have hsm : ∀ c ∈
        (⟨.equal, max p1 (p2 - 3), p2, max p3 (p4 - 3), p4⟩ : Opcode) :: [mid],
        c.tag = .equal → c.i2 - c.i1 ≤ 6 := by
      intro c hc he
      rcases List.mem_cons.mp hc with rfl | hc2
      · simp only []
        omega
      · simp only [List.mem_singleton] at hc2
        subst hc2
        exact absurd he hmid
    rw [gatherGroups_no_split _ hsm []]
    simp [singleEqual_cons_cons]
  · rw [List.singleton_append, groupedOpcodes_cons, trimFirst_cons_eq]
    rw [trimLast_cons_cons, trimLast_cons_cons, trimLast_eq_singleton]
    have hsm : ∀ c ∈
        (⟨.equal, max p1 (p2 - 3), p2, max p3 (p4 - 3), p4⟩ : Opcode) :: mid ::
          [(⟨.equal, q1, min q2 (q1 + 3), q3, min q4 (q3 + 3)⟩ : Opcode)],
        c.tag = .equal → c.i2 - c.i1 ≤ 6 := by
      intro c hc he
      rcases List.mem_cons.mp hc with rfl | hc2
      · simp only []
        omega
      · rcases List.mem_cons.mp hc2 with rfl | hc3
        · exact absurd he hmid
        · simp only [List.mem_singleton] at hc3
          subst hc3
          simp only []
          omega
    rw [gatherGroups_no_split _ hsm []]
    simp [singleEqual_cons_cons]

/-- Two different line sequences produce opcodes with a non-`equal` middle
section between at most one `equal` run on each side. -/
theorem myOpcodes_shape_of_ne {a b : List (List Char)} (h : a ≠ b) :
    ∃ pre mid suf, myOpcodes a b = pre ++ mid :: suf ∧ mid.tag ≠ .equal ∧
      (pre = [] ∨ ∃ i1 i2 j1 j2, pre = [⟨.equal, i1, i2, j1, j2⟩]) ∧
      (suf = [] ∨ ∃ i1 i2 j1 j2, suf = [⟨.equal, i1, i2, j1, j2⟩]) := by
  have hnb : ¬((a.drop (commonPreLen a b)).length -
        commonPreLen (a.drop (commonPreLen a b)).reverse
          (b.drop (commonPreLen a b)).reverse = 0 ∧
      (b.drop (commonPreLen a b)).length -
        commonPreLen (a.drop (commonPreLen a b)).reverse
          (b.drop (commonPreLen a b)).reverse = 0) := by
    rintro ⟨h1, h2⟩
    exact h (eq_of_middles_nil (Nat.le_of_sub_eq_zero h1)
      (Nat.le_of_sub_eq_zero h2))
  simp only [myOpcodes]
  set p := commonPreLen a b with hp
  set a1 := a.drop p with ha1
  set b1 := b.drop p with hb1
  set s := commonPreLen a1.reverse b1.reverse with hs
  set am := a1.length - s with ham
  set bm := b1.length - s with hbm
  by_cases h1 : 0 < am <;> by_cases h2 : 0 < bm
  · refine ⟨if 0 < p then [⟨.equal, 0, p, 0, p⟩] else [],
      ⟨.replace, p, p + am, p, p + bm⟩,
      if 0 < s then [⟨.equal, p + am, p + am + s, p + bm, p + bm + s⟩] else [],
      ?_, by simp, ?_, ?_⟩
    · simp [h1, h2, List.append_assoc]
    · by_cases hp0 : 0 < p
      · exact Or.inr ⟨0, p, 0, p, if_pos hp0⟩
      · exact Or.inl (if_neg hp0)
    · by_cases hs0 : 0 < s
      · exact Or.inr ⟨p + am, p + am + s, p + bm, p + bm + s, if_pos hs0⟩
      · exact Or.inl (if_neg hs0)
  · refine ⟨if 0 < p then [⟨.equal, 0, p, 0, p⟩] else [],
      ⟨.delete, p, p + am, p, p⟩,
      if 0 < s then [⟨.equal, p + am, p + am + s, p + bm, p + bm + s⟩] else [],
      ?_, by simp, ?_, ?_⟩
    · simp [h1, h2, List.append_assoc]
    · by_cases hp0 : 0 < p
      · exact Or.inr ⟨0, p, 0, p, if_pos hp0⟩
      · exact Or.inl (if_neg hp0)
    · by_cases hs0 : 0 < s
      · exact Or.inr ⟨p + am, p + am + s, p + bm, p + bm + s, if_pos hs0⟩
      · exact Or.inl (if_neg hs0)
  · refine ⟨if 0 < p then [⟨.equal, 0, p, 0, p⟩] else [],
      ⟨.insert, p, p, p, p + bm⟩,
      if 0 < s then [⟨.equal, p + am, p + am + s, p + bm, p + bm + s⟩] else [],
      ?_, by simp, ?_, ?_⟩
    · simp [h1, h2, List.append_assoc]
    · by_cases hp0 : 0 < p
      · exact Or.inr ⟨0, p, 0, p, if_pos hp0⟩
      · exact Or.inl (if_neg hp0)
    · by_cases hs0 : 0 < s
      · exact Or.inr ⟨p + am, p + am + s, p + bm, p + bm + s, if_pos hs0⟩
      · exact Or.inl (if_neg hs0)
  · exact absurd ⟨by omega, by omega⟩ hnb

/-- Different line sequences always yield the two header lines up front. -/
theorem unifiedDiffLines_ne_shape {a b : List (List Char)} (h : a ≠ b) :
    ∃ rest, unifiedDiffLines a b =
      "--- Previous".data :: "+++ Current".data :: rest := by
  obtain ⟨pre, mid, suf, heq, hmidtag, hpre, hsuf⟩ := myOpcodes_shape_of_ne h
  have hgrp : groupedOpcodes (myOpcodes a b) ≠ [] := by
    rw [heq]
    exact groupedOpcodes_pre_mid_suf mid hmidtag pre suf hpre hsuf
  cases hg : groupedOpcodes (myOpcodes a b) with
  | nil => exact absurd hg hgrp
  | cons g gs =>
    refine ⟨((g :: gs).map (hunkLines a b)).flatten, ?_⟩
    show (match groupedOpcodes (myOpcodes a b) with
      | [] => ([] : List (List Char))
      | gs => "--- Previous".data :: "+++ Current".data ::
          (gs.map (hunkLines a b)).flatten) = _
    rw [hg]

/-- C9: the diff of a text with itself is empty; the diff is non-empty
whenever the two fingerprints differ; and every non-empty diff output carries
the fixed side labels `--- Previous` and `+++ Current`. -/
theorem c9_diff_round_trip :
    (∀ X : String, compare_xml X X = "") ∧
    (∀ A B : String, get_content_hash A ≠ get_content_hash B →
      compare_xml A B ≠ "") ∧
    (∀ A B : String, compare_xml A B ≠ "" →
      strContains (compare_xml A B) "--- Previous" = true ∧
      strContains (compare_xml A B) "+++ Current" = true) := by
  have hcx : ∀ A B : String, compare_xml A B =
      ⟨(unifiedDiffLines (splitCore [] (normalizeCore A.data))
        (splitCore [] (normalizeCore B.data))).flatten⟩ := fun A B => rfl
  refine ⟨?_, ?_, ?_⟩
  · intro X
    rw [hcx X X, unifiedDiffLines_self]
    rfl
  · intro A B hh
    have hnorm : normalizeCore A.data ≠ normalizeCore B.data := fun he =>
      hh (show md5Hex (strBytes ⟨normalizeCore A.data⟩) =
        md5Hex (strBytes ⟨normalizeCore B.data⟩) by rw [he])
    have hlines : splitCore [] (normalizeCore A.data) ≠
        splitCore [] (normalizeCore B.data) := fun he => hnorm (splitCore_inj he)
    obtain ⟨rest, hr⟩ := unifiedDiffLines_ne_shape hlines
    rw [hcx A B, hr]
    intro hcon
    have hdata : ("--- Previous".data :: "+++ Current".data :: rest).flatten =
        ([] : List Char) := congrArg String.data hcon
    rw [List.flatten_cons] at hdata
    exact absurd (List.append_eq_nil.mp hdata).1 (by decide)
  · intro A B hne
    rcases unifiedDiffLines_shape (splitCore [] (normalizeCore A.data))
        (splitCore [] (normalizeCore B.data)) with h0 | ⟨rest, hr⟩
    · exact absurd (by rw [hcx A B, h0]; rfl) hne
    · constructor
      · show containsL ("--- Previous" : String).data
          (compare_xml A B).data = true
        rw [hcx A B, hr]
        show containsL "--- Previous".data
          (("--- Previous".data :: "+++ Current".data :: rest).flatten) = true
        rw [List.flatten_cons]
        have := containsL_parts [] "--- Previous".data
          ("+++ Current".data :: rest).flatten
        simpa using this
      · show containsL ("+++ Current" : String).data
          (compare_xml A B).data = true
        rw [hcx A B, hr]
        show containsL "+++ Current".data
          (("--- Previous".data :: "+++ Current".data :: rest).flatten) = true
        rw [List.flatten_cons, List.flatten_cons, ← List.append_assoc]
        exact containsL_parts _ _ _

set_option maxRecDepth 40000 in
/-- Witness for C9 at concrete raw texts. -/
theorem c9_diff_round_trip_witness :
    compare_xml "<a>v</a>" "<a>v</a>" = "" ∧
    get_content_hash "a" ≠ get_content_hash "b" ∧
    compare_xml "a" "b" ≠ "" ∧
    strContains (compare_xml "a" "b") "--- Previous" = true ∧
    strContains (compare_xml "a" "b") "+++ Current" = true := by
  have hh : get_content_hash "a" ≠ get_content_hash "b" := by decide
  have h2 := c9_diff_round_trip.2.1 "a" "b" hh
  have h3 := c9_diff_round_trip.2.2 "a" "b" h2
  exact ⟨c9_diff_round_trip.1 _, hh, h2, h3.1, h3.2⟩

/-- C8: when no configuration file exists at startup, the program uses the
generated default configuration — empty tracked-identifier set and default
retention count 2 — instead of failing. -/
theorem c8_default_config (fileContents : Config) :
    load_config false fileContents = create_default_config ∧
    (load_config false fileContents).rins = [] ∧
    (load_config false fileContents).keep_files = 2 :=
  ⟨rfl, rfl, rfl⟩

/-- Witness for the amended C3: both directions of the characterization at
concrete documents — a clean document is a fixed point, and the spliced
counterexample's output still contains a removable span, so re-running is
not a no-op there. -/
theorem c3_normalize_idempotent_iff_witness :
    (noRemovable (normalize_xml_for_comparison
        "<rule id=\"1234\" RUN_DATE=\"2024-01-01\">data v1</rule>").data = true ∧
      normalize_xml_for_comparison (normalize_xml_for_comparison
          "<rule id=\"1234\" RUN_DATE=\"2024-01-01\">data v1</rule>") =
        normalize_xml_for_comparison
          "<rule id=\"1234\" RUN_DATE=\"2024-01-01\">data v1</rule>") ∧
    noRemovable (normalize_xml_for_comparison "<!-<!--c-->-x-->").data =
      false :=
  ⟨⟨by decide, (c3_normalize_idempotent_iff _).mpr (by decide)⟩, by decide⟩

end RinMonitor
